import Mathlib

set_option maxRecDepth 8000

/-!
Shallow embedding of the STM32F4 internal-flash driver
(`src/drivers/stm32f4/flash.rs` of the `blue_hal` crate) and proofs about it.

Modelling conventions:
* `u8` bytes and `u32` addresses are `Nat`; `u32` arithmetic wraps via `wrap32`
  exactly where the Rust code performs `u32` addition; `saturating_sub` is `Nat`
  subtraction (which already truncates at zero).
* A Rust byte slice `&[u8]` is modelled as `Slice`: a length together with an
  index function.  Flash memory (the raw memory-mapped address space) is a
  function `Nat → Nat` from absolute addresses to bytes.
* The `FLASH` peripheral is modelled by `FlashState`: the memory-mapped bytes,
  the busy flag of the status register, and a ghost log `erased` recording the
  hardware sector-erase operations issued (the "erase-count probe" of the spec).
  Primitive operations complete synchronously, so the busy flag is never set by
  the model itself; `nb::block!` around a primitive therefore behaves as a
  single call.  Erasing a sector sets all its bytes to `0xFF` and programming
  writes 32-bit words, the hardware semantics stated in the spec (§4.3, §6,
  glossary).
* `Result`/`nb::Result` values are `NbResult`; returning an error produces no
  new state, which models "the call returns before the peripheral is touched".

Two helpers of the crate are imported by `flash.rs` but their source is not in
the repository snapshot (`utilities::bitwise::SliceBitSubset` and
`utilities::memory::IterableByOverlaps`); they are modelled from the spec, and
marked as such below.
-/

namespace BlueHal

/-- `u32` wrap-around: Rust release-mode `u32` addition truncates mod `2^32`. -/
def wrap32 (n : Nat) : Nat := n % 4294967296

/- `pub struct Address(pub u32)` — an absolute 32-bit address — is modelled as
a plain `Nat` (kept canonical below `2^32` by `wrap32` wherever the Rust code
performs `u32` arithmetic); its operator impls live in the `Address` namespace. -/

/-- `impl Add<usize> for Address`: `Address(self.0 + rhs as u32)` — a plain
(wrapping) `u32` addition of the truncated `usize`. -/
def Address.add_usize (a : Nat) (rhs : Nat) : Nat := wrap32 (a + wrap32 rhs)

/-- `impl Sub<usize> for Address`: `Address(self.0.saturating_sub(rhs as u32))`. -/
def Address.sub_usize (a : Nat) (rhs : Nat) : Nat := a - wrap32 rhs

/-- `impl Sub<Address> for Address`: `self.0.saturating_sub(rhs.0) as usize`. -/
def Address.sub_addr (a b : Nat) : Nat := a - b

/-- `pub enum Block` — purpose tag of a memory-map sector. -/
inductive Block
  | Reserved
  | Main
  | SystemMemory
  | OneTimeProgrammable
  | OptionBytes
deriving DecidableEq

/-- `struct Sector { block, location, size }`. -/
structure Sector where
  block : Block
  location : Nat
  size : Nat
deriving DecidableEq

instance : Inhabited Sector := ⟨⟨Block.Reserved, 0, 0⟩⟩

/-- `Sector::start`. -/
def Sector.start (s : Sector) : Nat := s.location

/-- `Sector::end` (`end` is a Lean keyword, hence `stop`):
`Address(self.start().0 + self.size as u32)`. -/
def Sector.stop (s : Sector) : Nat := wrap32 (s.start + s.size)

/-- `Sector::is_writable`: `block == Block::Main`. -/
def Sector.is_writable (s : Sector) : Bool := decide (s.block = Block.Main)

/-- `Sector::is_in_main_memory_area`: `Main` or `Reserved`. -/
def Sector.is_in_main_memory_area (s : Sector) : Bool :=
  decide (s.block = Block.Main) || decide (s.block = Block.Reserved)

/-- `impl memory::Region<Address> for Sector`: `start <= address && end > address`. -/
def Sector.contains (s : Sector) (a : Nat) : Bool :=
  decide (s.start ≤ a) && decide (s.stop > a)

/-- `struct Range(Address, Address)` — a half-open interval of addresses. -/
structure Range where
  lo : Nat
  hi : Nat

/-- `struct MemoryMap { sectors: [Sector; SECTOR_NUMBER] }`. -/
structure MemoryMap where
  sectors : List Sector

/-- `const SECTOR_NUMBER: usize = 15` (stm32f412). -/
def SECTOR_NUMBER : Nat := 15

/-- The static stm32f412 `MEMORY_MAP` (`KB!(n)` is `n * 1024`). -/
def MEMORY_MAP : MemoryMap :=
  ⟨[⟨Block.Reserved, 0x08000000, 16384⟩,
    ⟨Block.Reserved, 0x08004000, 16384⟩,
    ⟨Block.Reserved, 0x08008000, 16384⟩,
    ⟨Block.Reserved, 0x0800C000, 16384⟩,
    ⟨Block.Main, 0x08010000, 65536⟩,
    ⟨Block.Main, 0x08020000, 131072⟩,
    ⟨Block.Main, 0x08040000, 131072⟩,
    ⟨Block.Main, 0x08060000, 131072⟩,
    ⟨Block.Main, 0x08080000, 131072⟩,
    ⟨Block.Main, 0x080A0000, 131072⟩,
    ⟨Block.Main, 0x080C0000, 131072⟩,
    ⟨Block.Main, 0x080E0000, 131072⟩,
    ⟨Block.SystemMemory, 0x1FFF0000, 32768⟩,
    ⟨Block.OneTimeProgrammable, 0x1FFF7800, 528⟩,
    ⟨Block.OptionBytes, 0x1FFFC000, 16⟩]⟩

/-- First index (counting from `i`) of a sector satisfying `p`: models the
`iter().enumerate().find_map(..)` pattern of `Range::span`. -/
def find_first_idx (p : Sector → Bool) : Nat → List Sector → Option Nat
  | _, [] => none
  | i, s :: rest => if p s then some i else find_first_idx p (i + 1) rest

/-- Last index (counting from `i`) of a sector satisfying `p`: models the
`iter().enumerate().rev().find_map(..)` pattern of `Range::span`. -/
def find_last_idx (p : Sector → Bool) : Nat → List Sector → Option Nat
  | _, [] => none
  | i, s :: rest =>
    match find_last_idx p (i + 1) rest with
    | some j => some j
    | none => if p s then some i else none

/-- `Range::overlaps(sector)` — the literal four-clause disjunction of the source. -/
def Range.overlaps (r : Range) (s : Sector) : Bool :=
  (decide (r.lo ≤ s.start) && decide (r.hi > s.stop)) ||
  (decide (r.lo < s.stop) && decide (r.hi ≥ s.stop)) ||
  (decide (r.lo ≥ s.start) && decide (r.lo < s.stop)) ||
  (decide (r.hi < s.stop) && decide (r.hi ≥ s.start))

/-- `Range::span` — slice `[first..=last]` of the overlapped sectors, with the
defensive fall-back `&MEMORY_MAP.sectors[0..1]`. -/
def Range.span (r : Range) : List Sector :=
  match find_first_idx r.overlaps 0 MEMORY_MAP.sectors,
        find_last_idx r.overlaps 0 MEMORY_MAP.sectors with
  | some first, some last =>
    if last ≥ first then (MEMORY_MAP.sectors.drop first).take (last + 1 - first)
    else MEMORY_MAP.sectors.take 1
  | _, _ => MEMORY_MAP.sectors.take 1

/-- `Range::is_valid`: monotonic, not before `sectors[0].end()`, not at or past
`sectors[SECTOR_NUMBER-1].end()`. -/
def Range.is_valid (r : Range) : Bool :=
  let after_map := decide (r.lo ≥ (MEMORY_MAP.sectors.getD (SECTOR_NUMBER - 1) default).stop)
  let before_map := decide (r.hi < (MEMORY_MAP.sectors.getD 0 default).stop)
  let monotonic := decide (r.hi ≥ r.lo)
  monotonic && !before_map && !after_map

/-- `Range::is_writable`: all sectors spanned are writable. -/
def Range.is_writable (r : Range) : Bool := r.span.all Sector.is_writable

/-- `MemoryMap::is_sound`: main-memory-area sectors pairwise consecutive and
every sector's own range valid. -/
def MemoryMap.is_sound (m : MemoryMap) : Bool :=
  let main_sectors := m.sectors.filter Sector.is_in_main_memory_area
  let consecutive := (main_sectors.zip main_sectors.tail).all fun p => decide (p.1.stop = p.2.start)
  let ranges_valid := m.sectors.all fun s => Range.is_valid ⟨s.start, s.stop⟩
  consecutive && ranges_valid

/-- The first loop of `MemoryMap::writable_start` (searches the first writable
sector; an exhausted map would make the Rust index loop panic, modelled as 0). -/
def writable_start_loop : List Sector → Nat
  | [] => 0
  | s :: rest => if s.is_writable then s.start else writable_start_loop rest

/-- `MemoryMap::writable_start`. -/
def MemoryMap.writable_start : Nat := writable_start_loop MEMORY_MAP.sectors

/-- Advance to the first writable sector (first loop of `writable_end`). -/
def skip_to_writable : List Sector → List Sector
  | [] => []
  | s :: rest => if s.is_writable then s :: rest else skip_to_writable rest

/-- Second loop of `writable_end`: advance while `sectors[i+1]` is writable,
return `sectors[i].end()` (an out-of-bounds `i+1` would panic, modelled
by returning the end of the last sector). -/
def writable_end_loop : List Sector → Nat
  | [] => 0
  | [s] => s.stop
  | s :: s' :: rest => if !s'.is_writable then s.stop else writable_end_loop (s' :: rest)

/-- `MemoryMap::writable_end`. -/
def MemoryMap.writable_end : Nat := writable_end_loop (skip_to_writable MEMORY_MAP.sectors)

/-- `Sector::number`: index of this sector among the map entries, provided it is
in the main memory area (the hardware erase index). -/
def Sector.number (sec : Sector) : Option Nat :=
  find_first_idx (fun s => s.is_in_main_memory_area && decide (s = sec)) 0 MEMORY_MAP.sectors

/-- `pub enum Error`. -/
inductive Error
  | MemoryNotReachable
  | MisalignedAccess
deriving DecidableEq

/-- `nb::Result<T, Error>`: success, permanent error, or retryable `WouldBlock`. -/
inductive NbResult (α : Type)
  | ok (val : α)
  | err (e : Error)
  | wouldBlock
deriving DecidableEq

/-- Whether a result is `Ok`. -/
def NbResult.isOk {α : Type} : NbResult α → Bool
  | .ok _ => true
  | _ => false

/-- Value of an `Ok` result, with a default. -/
def NbResult.getD {α : Type} : NbResult α → α → α
  | .ok v, _ => v
  | _, d => d

/-- Raw flash memory: bytes of the memory-mapped address space. -/
abbrev Mem := Nat → Nat

/-- The model of `McuFlash` together with the memory-mapped flash content:
the bytes, the peripheral busy flag (`FLASH_SR.BSY`), and a ghost log of the
sector numbers for which a hardware erase was issued. -/
structure FlashState where
  mem : Mem
  busy : Bool
  erased : List Nat

/-- A Rust `&[u8]` byte slice: a length and an index function. -/
structure Slice where
  len : Nat
  get : Nat → Nat

/-- `slice.get(i).cloned().unwrap_or(d)`. -/
def Slice.getD (s : Slice) (i d : Nat) : Nat := if i < s.len then s.get i else d

/-- The sub-slice `s[k..]`. -/
def Slice.drop (s : Slice) (k : Nat) : Slice := ⟨s.len - k, fun i => s.get (k + i)⟩

/-- The `n` bytes of raw memory starting at `addr` (a raw memory copy). -/
def Slice.ofMem (m : Mem) (addr n : Nat) : Slice := ⟨n, fun i => m (addr + i)⟩

/-- The bytes of a slice as a list (for stating round-trip results). -/
def Slice.toList (s : Slice) : List Nat := (List.range s.len).map s.get

/-- View a byte list as a slice. -/
def listSlice (l : List Nat) : Slice := ⟨l.length, fun i => l.getD i 0⟩

/-- `McuFlash::is_busy`: the status-register busy bit. -/
def McuFlash.is_busy (s : FlashState) : Bool := s.busy

/-- `McuFlash::unlock`: fails `WouldBlock` while busy; the key-sequence and
psize register writes have no observable effect in the model. -/
def McuFlash.unlock (s : FlashState) : NbResult FlashState :=
  if McuFlash.is_busy s then .wouldBlock else .ok s

/-- `McuFlash::lock`: restores the lock bit; no observable model effect. -/
def McuFlash.lock (s : FlashState) : FlashState := s

/-- Set every byte of `[lo, hi)` to `0xFF` — the hardware effect of a sector
erase (all bits reset to 1). -/
def eraseRange (m : Mem) (lo hi : Nat) : Mem :=
  fun a => if lo ≤ a ∧ a < hi then 255 else m a

/-- `McuFlash::erase(sector)`: resolve the erase index (else
`MemoryNotReachable`), unlock (busy check), issue the erase, lock. -/
def McuFlash.erase_sector (s : FlashState) (sec : Sector) : NbResult FlashState :=
  match sec.number with
  | none => .err .MemoryNotReachable
  | some n =>
    match McuFlash.unlock s with
    | .wouldBlock => .wouldBlock
    | .err e => .err e
    | .ok s1 =>
      .ok { McuFlash.lock s1 with
              mem := eraseRange s1.mem sec.start sec.stop,
              erased := s1.erased ++ [n] }

/-- `u32::from_le_bytes`. -/
def le4 (b0 b1 b2 b3 : Nat) : Nat := b0 + 256 * b1 + 65536 * b2 + 16777216 * b3

/-- Word `j` of the programming loop: 4-byte little-endian chunk of `bytes`,
padded with `unwrap_or(0)` past the end. -/
def wordAt (bytes : Slice) (j : Nat) : Nat :=
  le4 (bytes.getD (4 * j) 0) (bytes.getD (4 * j + 1) 0)
      (bytes.getD (4 * j + 2) 0) (bytes.getD (4 * j + 3) 0)

/-- Store one little-endian 32-bit word at byte address `a`
(`*(base_address.add(index)) = word`). -/
def storeWord (m : Mem) (a w : Nat) : Mem :=
  fun x =>
    if x = a then w % 256
    else if x = a + 1 then w / 256 % 256
    else if x = a + 2 then w / 65536 % 256
    else if x = a + 3 then w / 16777216 % 256
    else m x

/-- Number of 4-byte chunks of a `len`-byte slice. -/
def numWords (len : Nat) : Nat := (len + 3) / 4

/-- The programming loop of `write_bytes`: store words `idx, idx+1, ...` while
`k` words remain. -/
def programWords (bytes : Slice) (base : Nat) : Nat → Nat → Mem → Mem
  | _, 0, m => m
  | idx, k + 1, m =>
    programWords bytes base (idx + 1) k (storeWord m (base + 4 * idx) (wordAt bytes idx))

/-- `McuFlash::write_bytes`: bounds check against the sector (else
`MisalignedAccess`), `block!(unlock)`, program the words, lock. -/
def McuFlash.write_bytes (s : FlashState) (bytes : Slice) (sec : Sector)
    (addr : Nat) : NbResult FlashState :=
  if decide (addr < sec.start) || decide (Address.add_usize addr bytes.len > sec.stop) then
    .err .MisalignedAccess
  else
    match McuFlash.unlock s with
    | .wouldBlock => .wouldBlock
    | .err e => .err e
    | .ok s1 =>
      .ok { McuFlash.lock s1 with
              mem := programWords bytes addr 0 (numWords bytes.len) s1.mem }

/-- `McuFlash::read`: validate the range is writable, then copy straight from
memory-mapped storage. -/
def McuFlash.read (s : FlashState) (addr : Nat) (n : Nat) : NbResult Slice :=
  let range : Range := ⟨addr, wrap32 (addr + wrap32 n)⟩
  if !range.is_writable then .err .MemoryNotReachable
  else .ok (Slice.ofMem s.mem addr n)

/-- Modelled from the spec: `utilities::memory::IterableByOverlaps` (its source
file is not part of the snapshot).  §4.2: one `(block_slice, sector,
sub_address)` tuple per sector touched, in ascending address order, where
`block_slice` is the portion of the input bytes landing in that sector and
`sub_address` is its absolute start address. -/
def overlap_pieces (bytes : List Nat) (addr : Nat) : List (List Nat × Sector × Nat) :=
  MEMORY_MAP.sectors.filterMap fun sec =>
    if max addr sec.start < min (addr + bytes.length) sec.stop then
      some ((bytes.drop (max addr sec.start - addr)).take
              (min (addr + bytes.length) sec.stop - max addr sec.start),
            sec, max addr sec.start)
    else none

/-- Helper for `is_subset_of`, walking the block against slice position `i`. -/
def is_subset_from (ys : Slice) : List Nat → Nat → Bool
  | [], _ => true
  | x :: xs, i => decide (i < ys.len) && (x &&& ys.get i == x) && is_subset_from ys xs (i + 1)

/-- Modelled from the spec: `utilities::bitwise::SliceBitSubset::is_subset_of`
(its source file is not part of the snapshot).  §4.3: the block is a bitwise
subset of the existing bytes — it fits, and for every bit position a `1` in the
block implies a `1` in the corresponding existing byte (`x AND y == x`). -/
def is_subset_of (xs : List Nat) (ys : Slice) : Bool := is_subset_from ys xs 0

/-- The overlay step of the erase path: `sector_data.iter_mut().skip(offset)
.zip(block).for_each(|(byte, input)| *byte = *input)`. -/
def overlay (data : Slice) (offset : Nat) (blk : List Nat) : Slice :=
  ⟨data.len,
   fun i =>
     if offset ≤ i ∧ i < offset + blk.length ∧ i < data.len then blk.getD (i - offset) 0
     else data.get i⟩

/-- Body of the per-sector `for` loop of `McuFlash::write`: read the sector,
test the bit-subset condition, then either program directly or
erase + overlay + reprogram the whole sector. -/
def write_piece (s : FlashState) (p : List Nat × Sector × Nat) : NbResult FlashState :=
  match p with
  | (block, sector, addr) =>
    let offset_into_sector := Address.sub_addr addr sector.start
    match McuFlash.read s sector.start sector.size with
    | .err e => .err e
    | .wouldBlock => .wouldBlock
    | .ok sector_data =>
      if is_subset_of block (sector_data.drop offset_into_sector) then
        McuFlash.write_bytes s (listSlice block) sector addr
      else
        match McuFlash.erase_sector s sector with
        | .err e => .err e
        | .wouldBlock => .wouldBlock
        | .ok s1 =>
          McuFlash.write_bytes s1 (overlay sector_data offset_into_sector block)
            sector sector.location

/-- The per-sector `for` loop of `McuFlash::write`. -/
def write_loop (s : FlashState) : List (List Nat × Sector × Nat) → NbResult FlashState
  | [] => .ok s
  | p :: ps =>
    match write_piece s p with
    | .ok s1 => write_loop s1 ps
    | r => r

/-- `McuFlash::write`: alignment check, writable-range check, busy check, then
the per-sector loop. -/
def McuFlash.write (s : FlashState) (address : Nat) (bytes : List Nat) :
    NbResult FlashState :=
  if address % 4 ≠ 0 then .err .MisalignedAccess
  else
    let range : Range := ⟨address, wrap32 (address + wrap32 bytes.length)⟩
    if !range.is_writable then .err .MemoryNotReachable
    else if McuFlash.is_busy s then .wouldBlock
    else write_loop s (overlap_pieces bytes address)

/-- The whole-device-erase loop body over the writable sectors. -/
def erase_all_loop (s : FlashState) : List Sector → NbResult FlashState
  | [] => .ok s
  | sec :: rest =>
    match McuFlash.erase_sector s sec with
    | .ok s1 => erase_all_loop s1 rest
    | r => r

/-- `<McuFlash as ReadWrite>::erase`: erase every writable sector of the map. -/
def McuFlash.erase (s : FlashState) : NbResult FlashState :=
  erase_all_loop s (MEMORY_MAP.sectors.filter Sector.is_writable)

/-- `McuFlash::new`: asserts `MEMORY_MAP.is_sound()` (modelled as `none` on
assertion failure), then `Ok`. -/
def McuFlash.new (m : Mem) (busy : Bool) : Option FlashState :=
  if MEMORY_MAP.is_sound then some ⟨m, busy, []⟩ else none

/-- `<McuFlash as ReadWrite>::range`. -/
def McuFlash.range : Nat × Nat :=
  (MemoryMap.writable_start, MemoryMap.writable_end)

/-! ### Spec-side comparison definitions

These follow the words of the spec (not the code); theorems below compare the
code's behaviour against them. -/

/-- The spec's notion of a range having nonempty intersection with a sector's
half-open address range. -/
def intersects (r : Range) (s : Sector) : Bool :=
  decide (max r.lo s.start < min r.hi s.stop)

/-- The simple predicate the code's `Range::overlaps` turns out to compute for
monotonic ranges: the range starts before the sector ends, and ends at or after
the sector starts (so a range whose `hi` equals the sector's start still
counts, unlike `intersects`). -/
def overlap_simple (r : Range) (s : Sector) : Bool :=
  decide (r.lo < s.stop) && decide (s.start ≤ r.hi)

/-- The spec's notion of an interval intersecting the overall address span of
the memory map (first sector start to last sector end). -/
def map_span_intersects (lo hi : Nat) : Bool :=
  decide (max lo (MEMORY_MAP.sectors.headD default).start <
          min hi ((MEMORY_MAP.sectors.getLastD default).stop))

/-- The contiguous run of `Main` sectors beginning at the first `Main` sector
of the map (the spec's "writable area"). -/
def main_run : List Sector :=
  (MEMORY_MAP.sectors.dropWhile (fun s => !s.is_writable)).takeWhile Sector.is_writable

/-- The subset-test the engine performs for a piece `(blk, sec, sub)` against
memory content `m`: `blk.is_subset_of(&sector_data[offset..sector.size])`. -/
def direct_path_cond (m : Mem) (blk : List Nat) (sec : Sector) (sub : Nat) : Bool :=
  is_subset_of blk ((Slice.ofMem m sec.start sec.size).drop (Address.sub_addr sub sec.start))

/-- How many hardware erases of sector `sec` the ghost log of `s` records. -/
def erase_count (s : FlashState) (sec : Sector) : Nat :=
  (s.erased.filter fun n => decide (sec.number = some n)).length

/-- Read `n` bytes at `addr` and return them as a list (`none` on error). -/
def read_list (s : FlashState) (addr : Nat) (n : Nat) : Option (List Nat) :=
  match McuFlash.read s addr n with
  | .ok sl => some sl.toList
  | _ => none

/-- All-erased flash memory (every byte `0xFF`), used as a concrete test
fixture by the witnesses below. -/
def ffMem : Mem := fun _ => 255

/-- An idle flash controller over all-erased memory with an empty ghost log. -/
def ffState : FlashState := ⟨ffMem, false, []⟩

/-! ### C10: soundness of the static map and `McuFlash::new` -/

/-- C10: the static stm32f412 `MEMORY_MAP` satisfies `is_sound` (main-area
sectors mutually contiguous, every sector's range valid), so the assertion in
`McuFlash::new` never fires and construction returns `Ok` for every peripheral
handle (any memory content and busy state). -/
theorem c10_construction_sound :
    MEMORY_MAP.is_sound = true ∧
    ∀ (m : Mem) (busy : Bool), McuFlash.new m busy = some ⟨m, busy, []⟩ := by
  refine ⟨by decide, fun m busy => ?_⟩
  simp [McuFlash.new, (by decide : MEMORY_MAP.is_sound = true)]

/-! ### C7: writable bounds -/

/-- C7: `writable_start()` is the start address of the first `Main` sector of
the map, and `writable_end()` is the end address of the last sector of the
contiguous run of `Main` sectors beginning there.  (Both are definitionally
pure functions of the static map in this model, so stability across calls is
immediate.) -/
theorem c7_writable_bounds :
    MemoryMap.writable_start = (main_run.headD default).start ∧
    MemoryMap.writable_end = (main_run.getLastD default).stop ∧
    MEMORY_MAP.sectors.find? Sector.is_writable = some (main_run.headD default) ∧
    main_run ≠ [] ∧ main_run.all Sector.is_writable = true := by
  decide

/-! ### C6: `Range::is_valid` -/

/-- C6 counterexample: the claim says every interval with `high ≥ low` that
intersects the map's overall address span is valid, but
`[0x08000000, 0x08002000)` lies inside the very first sector of the map and is
still rejected, because the code's `before_map` test compares the range's end
against the *end* of sector 0 (`0x08004000`), not the start of the map. -/
theorem c6_cex :
    Range.is_valid ⟨0x08000000, 0x08002000⟩ = false ∧
    (0x08000000 : Nat) ≤ 0x08002000 ∧
    map_span_intersects 0x08000000 0x08002000 = true := by
  decide

/-- C6 (amended): `is_valid` holds iff the interval is monotonic, its end is at
or past the end of the *first* sector of the map, and its start is before the
end of the last sector. -/
theorem c6_is_valid (lo hi : Nat) :
    Range.is_valid ⟨lo, hi⟩ = true ↔
      (lo ≤ hi ∧ (MEMORY_MAP.sectors.headD default).stop ≤ hi ∧
       lo < (MEMORY_MAP.sectors.getLastD default).stop) := by
  have h1 : (MEMORY_MAP.sectors.headD default).stop = 0x08004000 := by decide
  have h2 : (MEMORY_MAP.sectors.getLastD default).stop = 0x1FFFC010 := by decide
  have h3 : (MEMORY_MAP.sectors.getD (SECTOR_NUMBER - 1) default).stop = 0x1FFFC010 := by decide
  have h4 : (MEMORY_MAP.sectors.getD 0 default).stop = 0x08004000 := by decide
  simp only [Range.is_valid, h1, h2, h3, h4, Bool.and_eq_true, Bool.not_eq_true',
    decide_eq_true_eq, decide_eq_false_iff_not]
  omega

/-! ### C5: Nat arithmetic -/

/-- C5 counterexample: offset-by-size does not saturate.  At
`Address(0xFFFFFFFF) + 1usize` the code computes the wrapped `u32` sum `0`,
whereas a saturating addition would return `0xFFFFFFFF`. -/
theorem c5_cex :
    Address.add_usize 4294967295 1 = 0 ∧ Address.add_usize 4294967295 1 ≠ 4294967295 := by
  decide

/-- C5 (amended): `Address + usize` wraps modulo `2^32` (both operands
truncated to `u32`), it does not saturate; `Address - Address` is a saturating
byte count: it recovers the exact difference when `b ≤ a` and is `0` (never
negative) when `b > a`. -/
theorem c5_address_arith (a b n : Nat)
    (ha : a < 4294967296) (hn : n < 4294967296) :
    (a + n < 4294967296 → Address.add_usize a n = a + n) ∧
    (4294967296 ≤ a + n → Address.add_usize a n = a + n - 4294967296) ∧
    (b ≤ a → Address.sub_addr a b + b = a) ∧
    (a < b → Address.sub_addr a b = 0) := by
  simp only [Address.add_usize, Address.sub_addr, wrap32]
  refine ⟨fun h => ?_, fun h => ?_, fun h => ?_, fun h => ?_⟩ <;> omega

/-- Witness for `c5_address_arith` at concrete inputs: a wrapping sum and a
saturated difference. -/
theorem c5_address_arith_witness :
    Address.add_usize 4294967290 10 = 4 ∧ Address.sub_addr 3 7 = 0 := by
  refine ⟨?_, ?_⟩
  · have h := (c5_address_arith 4294967290 0 10 (by decide) (by decide)).2.1 (by decide)
    simpa using h
  · exact (c5_address_arith 3 7 0 (by decide) (by decide)).2.2.2 (by decide)

/-! ### C3: `Range::span`

Characterisation of the index searches behind `span`, and the proof that for a
monotonic range `span` is the contiguous slice of sectors satisfying the
predicate `lo < sector.end ∧ sector.start ≤ hi` (not the spec's strict
intersection predicate). -/

theorem find_first_idx_some (p : Sector → Bool) (l : List Sector) :
    ∀ i k, find_first_idx p i l = some k →
      i ≤ k ∧ k - i < l.length ∧ p (l.getD (k - i) default) = true ∧
        ∀ j < k - i, p (l.getD j default) = false := by
  induction l with
  | nil => intro i k h; simp [find_first_idx] at h
  | cons x xs ih =>
    intro i k h
    simp only [find_first_idx] at h
    by_cases hx : p x
    · rw [if_pos hx] at h
      obtain rfl : i = k := by simpa using h
      simp [hx]
    · rw [if_neg hx] at h
      obtain ⟨h1, h2, h3, h4⟩ := ih (i + 1) k h
      have hk : 1 ≤ k - i := by omega
      refine ⟨by omega, by simp; omega, ?_, ?_⟩
      · have : k - i = (k - (i + 1)) + 1 := by omega
        rw [this, List.getD_cons_succ]
        exact h3
      · intro j hj
        match j with
        | 0 => simpa [List.getD_cons_zero] using hx
        | j' + 1 =>
          rw [List.getD_cons_succ]
          exact h4 j' (by omega)

theorem find_first_idx_none (p : Sector → Bool) (l : List Sector) :
    ∀ i, find_first_idx p i l = none →
      ∀ j < l.length, p (l.getD j default) = false := by
  induction l with
  | nil => intro i _ j hj; simp at hj
  | cons x xs ih =>
    intro i h j hj
    simp only [find_first_idx] at h
    by_cases hx : p x
    · rw [if_pos hx] at h; exact absurd h (by simp)
    · rw [if_neg hx] at h
      match j with
      | 0 => simpa [List.getD_cons_zero] using hx
      | j' + 1 =>
        rw [List.getD_cons_succ]
        exact ih (i + 1) h j' (by simpa using hj)

theorem find_last_idx_none (p : Sector → Bool) (l : List Sector) :
    ∀ i, find_last_idx p i l = none →
      ∀ j < l.length, p (l.getD j default) = false := by
  induction l with
  | nil => intro i _ j hj; simp at hj
  | cons x xs ih =>
    intro i h j hj
    simp only [find_last_idx] at h
    cases hrec : find_last_idx p (i + 1) xs with
    | some j' => rw [hrec] at h; exact absurd h (by simp)
    | none =>
      rw [hrec] at h
      by_cases hx : p x
      · rw [if_pos hx] at h; exact absurd h (by simp)
      · match j with
        | 0 => simpa [List.getD_cons_zero] using hx
        | j' + 1 =>
          rw [List.getD_cons_succ]
          exact ih (i + 1) hrec j' (by simpa using hj)

theorem find_last_idx_some (p : Sector → Bool) (l : List Sector) :
    ∀ i k, find_last_idx p i l = some k →
      i ≤ k ∧ k - i < l.length ∧ p (l.getD (k - i) default) = true ∧
        ∀ j, k - i < j → j < l.length → p (l.getD j default) = false := by
  induction l with
  | nil => intro i k h; simp [find_last_idx] at h
  | cons x xs ih =>
    intro i k h
    simp only [find_last_idx] at h
    cases hrec : find_last_idx p (i + 1) xs with
    | some j =>
      rw [hrec] at h
      obtain rfl : j = k := by simpa using h
      obtain ⟨h1, h2, h3, h4⟩ := ih (i + 1) j hrec
      have hj1 : 1 ≤ j - i := by omega
      refine ⟨by omega, by simp; omega, ?_, ?_⟩
      · have : j - i = (j - (i + 1)) + 1 := by omega
        rw [this, List.getD_cons_succ]
        exact h3
      · intro m hm hml
        match m with
        | 0 => omega
        | m' + 1 =>
          rw [List.getD_cons_succ]
          exact h4 m' (by omega) (by simpa using hml)
    | none =>
      rw [hrec] at h
      by_cases hx : p x
      · rw [if_pos hx] at h
        obtain rfl : i = k := by simpa using h
        refine ⟨le_refl _, by simp, by simpa [List.getD_cons_zero] using hx, ?_⟩
        intro j hj hjl
        match j with
        | 0 => omega
        | j' + 1 =>
          rw [List.getD_cons_succ]
          exact find_last_idx_none p xs (i + 1) hrec j' (by simpa using hjl)
      · rw [if_neg hx] at h; exact absurd h (by simp)

theorem find_first_idx_congr (p q : Sector → Bool) :
    ∀ (l : List Sector), (∀ s ∈ l, p s = q s) →
      ∀ i, find_first_idx p i l = find_first_idx q i l := by
  intro l
  induction l with
  | nil => intro _ _; simp [find_first_idx]
  | cons x xs ih =>
    intro h i
    simp only [find_first_idx, h x (by simp)]
    rw [ih (fun s hs => h s (by simp [hs]))]

theorem find_last_idx_congr (p q : Sector → Bool) :
    ∀ (l : List Sector), (∀ s ∈ l, p s = q s) →
      ∀ i, find_last_idx p i l = find_last_idx q i l := by
  intro l
  induction l with
  | nil => intro _ _; simp [find_last_idx]
  | cons x xs ih =>
    intro h i
    simp only [find_last_idx, h x (by simp)]
    rw [ih (fun s hs => h s (by simp [hs]))]

/-- A filter whose predicate holds exactly on the index interval `[f, last]` is
the corresponding contiguous slice. -/
theorem filter_eq_slice (p : Sector → Bool) :
    ∀ (l : List Sector) (f last : Nat), f ≤ last → last < l.length →
      (∀ j, j < l.length → (p (l.getD j default) = true ↔ (f ≤ j ∧ j ≤ last))) →
      l.filter p = (l.drop f).take (last + 1 - f) := by
  intro l
  induction l with
  | nil => intro f last _ h2 _; simp at h2
  | cons x xs ih =>
    intro f last h1 h2 hiff
    match f with
    | 0 =>
      have hx : p x = true := by
        have := (hiff 0 (by simp)).2 ⟨by omega, by omega⟩
        simpa [List.getD_cons_zero] using this
      rw [List.filter_cons, if_pos (by simp [hx])]
      match last with
      | 0 =>
        have hnil : xs.filter p = [] := by
          apply List.filter_eq_nil_iff.mpr
          intro s hs
          obtain ⟨i, hi, rfl⟩ := List.mem_iff_getElem.mp hs
          have hfalse : p ((x :: xs).getD (i + 1) default) = true ↔ (0 ≤ i + 1 ∧ i + 1 ≤ 0) :=
            hiff (i + 1) (by simpa using hi)
          rw [List.getD_cons_succ, List.getD_eq_getElem _ _ hi] at hfalse
          intro hp
          exact absurd (hfalse.mp hp).2 (by omega)
        simp [hnil]
      | last' + 1 =>
        have hrec := ih 0 last' (by omega) (by simpa using h2) ?_
        · simpa using congrArg (x :: ·) hrec
        · intro j hj
          have := hiff (j + 1) (by simpa using hj)
          rw [List.getD_cons_succ] at this
          rw [this]
          omega
    | f' + 1 =>
      have hx : p x = false := by
        rcases Bool.eq_false_or_eq_true (p x) with h | h
        · have := (hiff 0 (by simp)).1 (by simpa [List.getD_cons_zero] using h)
          omega
        · exact h
      rw [List.filter_cons, if_neg (by simp [hx]), List.drop_succ_cons]
      have harith : last + 1 - (f' + 1) = (last - 1) + 1 - f' := by omega
      rw [harith]
      apply ih f' (last - 1) (by omega) (by simp at h2; omega)
      intro j hj
      have := hiff (j + 1) (by simpa using hj)
      rw [List.getD_cons_succ] at this
      rw [this]
      omega

/-- For a monotonic range and a nonempty sector, the four-clause `overlaps` is
the simple predicate `lo < sector.end ∧ sector.start ≤ hi`. -/
theorem overlaps_eq_simple (r : Range) (s : Sector) (hr : r.lo ≤ r.hi)
    (hs : s.start < s.stop) : r.overlaps s = overlap_simple r s := by
  rw [Bool.eq_iff_iff]
  simp only [Range.overlaps, overlap_simple, Bool.or_eq_true, Bool.and_eq_true,
    decide_eq_true_eq]
  omega

/-- Every sector of the static map is nonempty. -/
theorem map_sectors_nonempty : ∀ s ∈ MEMORY_MAP.sectors, s.start < s.stop := by
  decide

theorem span_reduce_some (r : Range) (f last : Nat)
    (h1 : find_first_idx r.overlaps 0 MEMORY_MAP.sectors = some f)
    (h2 : find_last_idx r.overlaps 0 MEMORY_MAP.sectors = some last) :
    Range.span r =
      if last ≥ f then (MEMORY_MAP.sectors.drop f).take (last + 1 - f)
      else MEMORY_MAP.sectors.take 1 := by
  unfold Range.span
  rw [h1, h2]

theorem span_reduce_first_none (r : Range)
    (h1 : find_first_idx r.overlaps 0 MEMORY_MAP.sectors = none) :
    Range.span r = MEMORY_MAP.sectors.take 1 := by
  unfold Range.span
  rw [h1]

/-- C3 (amended): for every monotonic range `[a, b)`, the code's overlap test
is `a < sector.end ∧ sector.start ≤ b` — edge-touching at `b = sector.start`
counts, and the containing sector of an empty range counts, unlike strict
intersection — and whenever the set of sectors satisfying it is contiguous in
the map (hypothesis `hclosed`; it can fail to be, because the
one-time-programmable sector's range nests inside the system-memory sector's),
`span` returns exactly the address-ordered slice of those sectors, falling
back to the first sector exactly when no sector qualifies (which also happens
for in-bounds ranges inside the unmapped gap of the map). -/
theorem c3_span_characterization (a b : Nat) (hab : a ≤ b)
    (hclosed : ∀ k, k < MEMORY_MAP.sectors.length → ∀ j ≤ k, ∀ i ≤ j,
        overlap_simple ⟨a, b⟩ (MEMORY_MAP.sectors.getD i default) = true →
        overlap_simple ⟨a, b⟩ (MEMORY_MAP.sectors.getD k default) = true →
        overlap_simple ⟨a, b⟩ (MEMORY_MAP.sectors.getD j default) = true) :
    (MEMORY_MAP.sectors.any (overlap_simple ⟨a, b⟩) = true →
        Range.span ⟨a, b⟩ = MEMORY_MAP.sectors.filter (overlap_simple ⟨a, b⟩)) ∧
    (MEMORY_MAP.sectors.any (overlap_simple ⟨a, b⟩) = false →
        Range.span ⟨a, b⟩ = MEMORY_MAP.sectors.take 1) := by
  have hcong : ∀ s ∈ MEMORY_MAP.sectors, Range.overlaps ⟨a, b⟩ s = overlap_simple ⟨a, b⟩ s :=
    fun s hs => overlaps_eq_simple ⟨a, b⟩ s hab (map_sectors_nonempty s hs)
  have hff0 := find_first_idx_congr _ _ MEMORY_MAP.sectors hcong 0
  have hfl0 := find_last_idx_congr _ _ MEMORY_MAP.sectors hcong 0
  cases hff : find_first_idx (overlap_simple ⟨a, b⟩) 0 MEMORY_MAP.sectors with
  | none =>
    have hspan := span_reduce_first_none ⟨a, b⟩ (hff0.trans hff)
    have hall := find_first_idx_none _ _ 0 hff
    refine ⟨fun hany => ?_, fun _ => hspan⟩
    obtain ⟨s, hs, hps⟩ := List.any_eq_true.mp hany
    obtain ⟨i, hi, rfl⟩ := List.mem_iff_getElem.mp hs
    have hfalse := hall i hi
    rw [List.getD_eq_getElem _ _ hi] at hfalse
    rw [hfalse] at hps
    exact Bool.noConfusion hps
  | some f =>
    obtain ⟨-, hflen, hpf, hfmin⟩ := find_first_idx_some _ _ 0 f hff
    simp only [Nat.sub_zero] at hflen hpf hfmin
    cases hfl : find_last_idx (overlap_simple ⟨a, b⟩) 0 MEMORY_MAP.sectors with
    | none =>
      have hall := find_last_idx_none _ _ 0 hfl
      rw [hall f hflen] at hpf
      exact Bool.noConfusion hpf
    | some last =>
      obtain ⟨-, hllen, hpl, hlmax⟩ := find_last_idx_some _ _ 0 last hfl
      simp only [Nat.sub_zero] at hllen hpl hlmax
      have hfle : f ≤ last := by
        by_contra hlt
        rw [hfmin last (by omega)] at hpl
        exact Bool.noConfusion hpl
      have hspan : Range.span ⟨a, b⟩ = (MEMORY_MAP.sectors.drop f).take (last + 1 - f) := by
        rw [span_reduce_some ⟨a, b⟩ f last (hff0.trans hff) (hfl0.trans hfl), if_pos hfle]
      have hanyt : MEMORY_MAP.sectors.any (overlap_simple ⟨a, b⟩) = true := by
        apply List.any_eq_true.mpr
        have hmem : MEMORY_MAP.sectors.getD f default ∈ MEMORY_MAP.sectors := by
          rw [List.getD_eq_getElem _ _ hflen]
          exact List.getElem_mem hflen
        exact ⟨MEMORY_MAP.sectors.getD f default, hmem, hpf⟩
      refine ⟨fun _ => ?_, fun hany => by rw [hanyt] at hany; exact Bool.noConfusion hany⟩
      rw [hspan]
      symm
      apply filter_eq_slice _ _ f last hfle hllen
      intro j hj
      constructor
      · intro hpj
        refine ⟨?_, ?_⟩
        · by_contra hc
          rw [hfmin j (by omega)] at hpj
          exact Bool.noConfusion hpj
        · by_contra hc
          rw [hlmax j (by omega) hj] at hpj
          exact Bool.noConfusion hpj
      · rintro ⟨h1, h2⟩
        exact hclosed last hllen j h2 f h1 hpf hpl

/-- C3 counterexample: `Range(0x08000000, 0x08010000)` is valid, monotonic and
fully inside the map, yet `span` is not the slice of sectors with nonempty
intersection: the range merely edge-touches sector 4 (`start = 0x08010000`) at
its far end, and `span` includes it anyway (5 sectors instead of 4). -/
theorem c3_cex :
    Range.is_valid ⟨0x08000000, 0x08010000⟩ = true ∧
    (0x08000000 : Nat) ≤ 0x08010000 ∧
    (MEMORY_MAP.sectors.headD default).start ≤ 0x08000000 ∧
    (0x08010000 : Nat) ≤ (MEMORY_MAP.sectors.getLastD default).stop ∧
    Range.span ⟨0x08000000, 0x08010000⟩ ≠
      MEMORY_MAP.sectors.filter (intersects ⟨0x08000000, 0x08010000⟩) := by
  decide

/-- Witness for `c3_span_characterization`: the repo's own span test range
(filter case) and an out-of-map range (fall-back case). -/
theorem c3_span_characterization_witness :
    Range.span ⟨0x08011234, 0x08045678⟩ =
      MEMORY_MAP.sectors.filter (overlap_simple ⟨0x08011234, 0x08045678⟩) ∧
    Range.span ⟨0x00000000, 0x00000004⟩ = MEMORY_MAP.sectors.take 1 :=
  ⟨(c3_span_characterization 0x08011234 0x08045678 (by decide) (by decide)).1 (by decide),
   (c3_span_characterization 0x00000000 0x00000004 (by decide) (by decide)).2 (by decide)⟩

/-! ### The programming loop, byte by byte -/

theorem slice_getD_lt (bytes : Slice) (hb : ∀ i, i < bytes.len → bytes.get i < 256) (i : Nat) :
    bytes.getD i 0 < 256 := by
  unfold Slice.getD
  split
  · exact hb i ‹_›
  · omega

theorem wordAt_digits (bytes : Slice) (hb : ∀ i, i < bytes.len → bytes.get i < 256) (j : Nat) :
    wordAt bytes j % 256 = bytes.getD (4 * j) 0 ∧
    wordAt bytes j / 256 % 256 = bytes.getD (4 * j + 1) 0 ∧
    wordAt bytes j / 65536 % 256 = bytes.getD (4 * j + 2) 0 ∧
    wordAt bytes j / 16777216 % 256 = bytes.getD (4 * j + 3) 0 := by
  have h0 := slice_getD_lt bytes hb (4 * j)
  have h1 := slice_getD_lt bytes hb (4 * j + 1)
  have h2 := slice_getD_lt bytes hb (4 * j + 2)
  have h3 := slice_getD_lt bytes hb (4 * j + 3)
  simp only [wordAt, le4]
  refine ⟨?_, ?_, ?_, ?_⟩ <;> omega

/-- Effect of the word-programming loop on a single byte of memory: every byte
of `[base + 4*idx, base + 4*(idx+k))` becomes the corresponding byte of the
slice (`0`-padded past its end), every other byte is untouched. -/
theorem programWords_get (bytes : Slice) (base : Nat)
    (hb : ∀ i, i < bytes.len → bytes.get i < 256) :
    ∀ (k idx : Nat) (m : Mem) (x : Nat),
      programWords bytes base idx k m x =
        if base + 4 * idx ≤ x ∧ x < base + 4 * (idx + k) then bytes.getD (x - base) 0
        else m x := by
  intro k
  induction k with
  | zero =>
    intro idx m x
    simp only [programWords]
    rw [if_neg (by omega)]
  | succ k ih =>
    intro idx m x
    simp only [programWords]
    rw [ih (idx + 1)]
    by_cases hx : base + 4 * (idx + 1) ≤ x ∧ x < base + 4 * (idx + 1 + k)
    · rw [if_pos hx, if_pos (by omega)]
    · rw [if_neg hx]
      obtain ⟨w0, w1, w2, w3⟩ := wordAt_digits bytes hb idx
      by_cases hin : base + 4 * idx ≤ x ∧ x < base + 4 * (idx + (k + 1))
      · rw [if_pos hin]
        simp only [storeWord]
        have hx4 : x = base + 4 * idx ∨ x = base + 4 * idx + 1 ∨ x = base + 4 * idx + 2 ∨
            x = base + 4 * idx + 3 := by omega
        rcases hx4 with h | h | h | h
        · rw [if_pos h, h]
          have hd : base + 4 * idx - base = 4 * idx := by omega
          rw [hd]
          exact w0
        · rw [if_neg (by omega), if_pos h, h]
          have hd : base + 4 * idx + 1 - base = 4 * idx + 1 := by omega
          rw [hd]
          exact w1
        · rw [if_neg (by omega), if_neg (by omega), if_pos h, h]
          have hd : base + 4 * idx + 2 - base = 4 * idx + 2 := by omega
          rw [hd]
          exact w2
        · rw [if_neg (by omega), if_neg (by omega), if_neg (by omega), if_pos h, h]
          have hd : base + 4 * idx + 3 - base = 4 * idx + 3 := by omega
          rw [hd]
          exact w3
      · rw [if_neg hin]
        simp only [storeWord]
        rw [if_neg (by omega), if_neg (by omega), if_neg (by omega), if_neg (by omega)]

/-! ### Characterisation of the primitive operations -/

theorem write_bytes_ok (s : FlashState) (bytes : Slice) (sec : Sector) (addr : Nat)
    (hbusy : s.busy = false) (hlo : sec.start ≤ addr) (hhi : addr + bytes.len ≤ sec.stop)
    (hwrap : addr + bytes.len < 4294967296) :
    McuFlash.write_bytes s bytes sec addr =
      .ok { s with mem := programWords bytes addr 0 (numWords bytes.len) s.mem } := by
  have hadd : Address.add_usize addr bytes.len = addr + bytes.len := by
    simp only [Address.add_usize, wrap32]
    omega
  simp only [McuFlash.write_bytes, hadd, McuFlash.unlock, McuFlash.is_busy, McuFlash.lock]
  rw [if_neg (by simp; omega), if_neg (by simp [hbusy])]

theorem erase_sector_ok (s : FlashState) (sec : Sector) (n : Nat)
    (hn : sec.number = some n) (hbusy : s.busy = false) :
    McuFlash.erase_sector s sec =
      .ok { mem := eraseRange s.mem sec.start sec.stop, busy := s.busy,
            erased := s.erased ++ [n] } := by
  simp only [McuFlash.erase_sector, hn, McuFlash.unlock, McuFlash.is_busy, McuFlash.lock]
  rw [if_neg (by simp [hbusy])]

theorem read_ok (s : FlashState) (addr n : Nat)
    (hw : Range.is_writable ⟨addr, wrap32 (addr + wrap32 n)⟩ = true) :
    McuFlash.read s addr n = .ok (Slice.ofMem s.mem addr n) := by
  simp only [McuFlash.read, hw]
  rfl

theorem read_err (s : FlashState) (addr n : Nat)
    (hw : Range.is_writable ⟨addr, wrap32 (addr + wrap32 n)⟩ = false) :
    McuFlash.read s addr n = .err .MemoryNotReachable := by
  simp only [McuFlash.read, hw]
  rfl

/-! ### Facts about the static map, checked by evaluation -/

theorem map_sector_facts :
    ∀ sec ∈ MEMORY_MAP.sectors,
      sec.stop = sec.start + sec.size ∧ sec.start % 4 = 0 ∧ sec.size % 4 = 0 ∧
      0 < sec.size ∧ sec.stop < 4294967296 := by
  decide

theorem map_writable_number :
    ∀ sec ∈ MEMORY_MAP.sectors, sec.is_writable = true → (sec.number).isSome = true := by
  decide

theorem map_writable_number_inj :
    List.Pairwise (fun s t => s.is_writable = true → t.is_writable = true →
      s.number ≠ t.number) MEMORY_MAP.sectors := by
  decide

theorem map_writable_disjoint :
    List.Pairwise (fun s t => s.is_writable = true → t.is_writable = true →
      s.stop ≤ t.start) MEMORY_MAP.sectors := by
  decide

theorem map_writable_sector_range_writable :
    ∀ sec ∈ MEMORY_MAP.sectors, sec.is_writable = true →
      Range.is_writable ⟨sec.start, wrap32 (sec.start + wrap32 sec.size)⟩ = true := by
  decide

/-- Every address of the writable area `[writable_start, writable_end)` lies in
some writable sector of the map. -/
theorem writable_coverage (x : Nat)
    (h1 : MemoryMap.writable_start ≤ x) (h2 : x < MemoryMap.writable_end) :
    ∃ sec ∈ MEMORY_MAP.sectors, sec.is_writable = true ∧ sec.start ≤ x ∧ x < sec.stop := by
  have hws : MemoryMap.writable_start = 0x08010000 := by decide
  have hwe : MemoryMap.writable_end = 0x08100000 := by decide
  rw [hws] at h1
  rw [hwe] at h2
  by_cases c4 : x < 0x08020000
  · exact ⟨⟨Block.Main, 0x08010000, 65536⟩, by decide, by decide,
      by simp only [Sector.start]; omega, by simp [Sector.stop, Sector.start, wrap32]; omega⟩
  by_cases c5 : x < 0x08040000
  · exact ⟨⟨Block.Main, 0x08020000, 131072⟩, by decide, by decide,
      by simp only [Sector.start]; omega, by simp [Sector.stop, Sector.start, wrap32]; omega⟩
  by_cases c6 : x < 0x08060000
  · exact ⟨⟨Block.Main, 0x08040000, 131072⟩, by decide, by decide,
      by simp only [Sector.start]; omega, by simp [Sector.stop, Sector.start, wrap32]; omega⟩
  by_cases c7 : x < 0x08080000
  · exact ⟨⟨Block.Main, 0x08060000, 131072⟩, by decide, by decide,
      by simp only [Sector.start]; omega, by simp [Sector.stop, Sector.start, wrap32]; omega⟩
  by_cases c8 : x < 0x080A0000
  · exact ⟨⟨Block.Main, 0x08080000, 131072⟩, by decide, by decide,
      by simp only [Sector.start]; omega, by simp [Sector.stop, Sector.start, wrap32]; omega⟩
  by_cases c9 : x < 0x080C0000
  · exact ⟨⟨Block.Main, 0x080A0000, 131072⟩, by decide, by decide,
      by simp only [Sector.start]; omega, by simp [Sector.stop, Sector.start, wrap32]; omega⟩
  by_cases c10 : x < 0x080E0000
  · exact ⟨⟨Block.Main, 0x080C0000, 131072⟩, by decide, by decide,
      by simp only [Sector.start]; omega, by simp [Sector.stop, Sector.start, wrap32]; omega⟩
  exact ⟨⟨Block.Main, 0x080E0000, 131072⟩, by decide, by decide,
    by simp only [Sector.start]; omega, by simp [Sector.stop, Sector.start, wrap32]; omega⟩

/-! ### Byte-bound and lookup helpers for slices -/

theorem list_getD_lt (l : List Nat) (hl : ∀ x ∈ l, x < 256) (i : Nat) : l.getD i 0 < 256 := by
  by_cases h : i < l.length
  · rw [List.getD_eq_getElem _ _ h]
    exact hl _ (List.getElem_mem h)
  · rw [List.getD_eq_default _ _ (by omega)]
    omega

theorem listSlice_lt (l : List Nat) (hl : ∀ x ∈ l, x < 256) :
    ∀ i, i < (listSlice l).len → (listSlice l).get i < 256 := by
  intro i _
  simp only [listSlice]
  exact list_getD_lt l hl i

theorem listSlice_getD (l : List Nat) (i : Nat) : (listSlice l).getD i 0 = l.getD i 0 := by
  simp only [listSlice, Slice.getD]
  split
  · rfl
  · rw [List.getD_eq_default _ _ (by omega)]

theorem ofMem_lt (m : Mem) (hm : ∀ a, m a < 256) (addr n : Nat) :
    ∀ i, i < (Slice.ofMem m addr n).len → (Slice.ofMem m addr n).get i < 256 :=
  fun i _ => hm (addr + i)

theorem overlay_lt (data : Slice) (offset : Nat) (blk : List Nat)
    (hd : ∀ i, i < data.len → data.get i < 256) (hb : ∀ x ∈ blk, x < 256) :
    ∀ i, i < (overlay data offset blk).len → (overlay data offset blk).get i < 256 := by
  intro i hi
  simp only [overlay] at hi ⊢
  split
  · exact list_getD_lt blk hb _
  · exact hd i hi

theorem overlay_getD (data : Slice) (off : Nat) (blk : List Nat) (j : Nat) :
    (overlay data off blk).getD j 0 =
      if j < data.len then
        (if off ≤ j ∧ j < off + blk.length then blk.getD (j - off) 0 else data.get j)
      else 0 := by
  simp only [overlay, Slice.getD]
  by_cases h : j < data.len
  · rw [if_pos h, if_pos h]
    by_cases h2 : off ≤ j ∧ j < off + blk.length
    · rw [if_pos ⟨h2.1, h2.2, h⟩, if_pos h2]
    · rw [if_neg (fun hc => h2 ⟨hc.1, hc.2.1⟩), if_neg h2]
  · rw [if_neg h, if_neg h]

/-! ### The bit-subset test only depends on the sector's bytes -/

theorem is_subset_from_congr (ys1 ys2 : Slice) (hlen : ys1.len = ys2.len)
    (hget : ∀ i, i < ys1.len → ys1.get i = ys2.get i) :
    ∀ (xs : List Nat) (i : Nat), is_subset_from ys1 xs i = is_subset_from ys2 xs i := by
  intro xs
  induction xs with
  | nil => intro i; rfl
  | cons x xs ih =>
    intro i
    simp only [is_subset_from, hlen]
    by_cases h : i < ys2.len
    · rw [hget i (by omega), ih (i + 1)]
    · simp [h]

theorem direct_path_cond_congr (m1 m2 : Mem) (blk : List Nat) (sec : Sector) (sub : Nat)
    (hag : ∀ a, sec.start ≤ a → a < sec.stop → m1 a = m2 a)
    (hss : sec.stop = sec.start + sec.size) :
    direct_path_cond m1 blk sec sub = direct_path_cond m2 blk sec sub := by
  unfold direct_path_cond is_subset_of
  apply is_subset_from_congr
  · rfl
  · intro i hi
    simp only [Slice.drop, Slice.ofMem] at hi ⊢
    apply hag
    · omega
    · omega

/-! ### One iteration of the per-sector write loop -/

/-- Complete characterisation of `write_piece` for a well-formed piece on a
writable sector: it succeeds; it never touches bytes outside the sector; the
requested bytes are programmed; on the direct path no erase is logged; on the
erase path exactly one erase of this sector is logged and every sector byte
outside the written region is restored unchanged. -/
theorem write_piece_ok (s : FlashState) (blk : List Nat) (sec : Sector) (sub : Nat)
    (hbusy : s.busy = false)
    (hmem : ∀ a, s.mem a < 256) (hblk : ∀ x ∈ blk, x < 256)
    (hsecw : Range.is_writable ⟨sec.start, wrap32 (sec.start + wrap32 sec.size)⟩ = true)
    (hnum : (sec.number).isSome = true)
    (hss : sec.stop = sec.start + sec.size)
    (hs4 : sec.start % 4 = 0) (hz4 : sec.size % 4 = 0)
    (hwrap : sec.stop < 4294967296)
    (hlo : sec.start ≤ sub) (hsub4 : sub % 4 = 0)
    (hhi : sub + blk.length ≤ sec.stop) :
    ∃ s2, write_piece s (blk, sec, sub) = .ok s2 ∧
      s2.busy = false ∧
      (∀ a, s2.mem a < 256) ∧
      (∀ a, a < sec.start ∨ sec.stop ≤ a → s2.mem a = s.mem a) ∧
      (∀ i, i < blk.length → s2.mem (sub + i) = blk.getD i 0) ∧
      (direct_path_cond s.mem blk sec sub = true → s2.erased = s.erased) ∧
      (direct_path_cond s.mem blk sec sub = false →
        s2.erased = s.erased ++ [sec.number.getD 0] ∧
        (∀ a, sec.start ≤ a → a < sec.stop → a < sub ∨ sub + blk.length ≤ a →
          s2.mem a = s.mem a)) := by
  have hnw : numWords blk.length = (blk.length + 3) / 4 := rfl
  have h4nw : sub + 4 * numWords blk.length ≤ sec.stop := by rw [hnw]; omega
  have hred : write_piece s (blk, sec, sub) =
      (if direct_path_cond s.mem blk sec sub then
        McuFlash.write_bytes s (listSlice blk) sec sub
      else
        match McuFlash.erase_sector s sec with
        | .err e => .err e
        | .wouldBlock => .wouldBlock
        | .ok s1 =>
          McuFlash.write_bytes s1
            (overlay (Slice.ofMem s.mem sec.start sec.size) (Address.sub_addr sub sec.start) blk)
            sec sec.location) := by
    simp only [write_piece]
    rw [read_ok s sec.start sec.size hsecw]
    rfl
  by_cases hc : direct_path_cond s.mem blk sec sub = true
  · -- direct-program path
    have hwb := write_bytes_ok s (listSlice blk) sec sub hbusy hlo hhi
      (by show sub + blk.length < 4294967296; omega)
    have hpw : ∀ x, programWords (listSlice blk) sub 0 (numWords (listSlice blk).len) s.mem x =
        if sub ≤ x ∧ x < sub + 4 * numWords blk.length then blk.getD (x - sub) 0
        else s.mem x := by
      intro x
      rw [programWords_get (listSlice blk) sub (listSlice_lt blk hblk)]
      rw [listSlice_getD]
      have hlen : (listSlice blk).len = blk.length := rfl
      rw [hlen]
      congr 1
      simp only [Nat.mul_zero, Nat.add_zero, Nat.zero_add]
    refine ⟨⟨programWords (listSlice blk) sub 0 (numWords (listSlice blk).len) s.mem, s.busy, s.erased⟩,
      by rw [hred, if_pos hc]; exact hwb, hbusy, ?_, ?_, ?_,
      fun _ => rfl, fun hfalse => absurd hc (by simp [hfalse])⟩
    · intro a
      show programWords (listSlice blk) sub 0 (numWords (listSlice blk).len) s.mem a < 256
      rw [hpw a]
      split
      · exact list_getD_lt blk hblk _
      · exact hmem a
    · intro a ha
      show programWords (listSlice blk) sub 0 (numWords (listSlice blk).len) s.mem a = s.mem a
      rw [hpw a, if_neg (by omega)]
    · intro i hi
      show programWords (listSlice blk) sub 0 (numWords (listSlice blk).len) s.mem (sub + i) =
        blk.getD i 0
      rw [hpw (sub + i), if_pos (by rw [hnw]; omega)]
      have hidx : sub + i - sub = i := by omega
      rw [hidx]
  · -- erase + rewrite path
    obtain ⟨n, hn⟩ := Option.isSome_iff_exists.mp hnum
    have hcf : direct_path_cond s.mem blk sec sub = false := by
      simpa using hc
    have hovlen : (overlay (Slice.ofMem s.mem sec.start sec.size)
        (Address.sub_addr sub sec.start) blk).len = sec.size := rfl
    have hofLen : (Slice.ofMem s.mem sec.start sec.size).len = sec.size := rfl
    have hloc : sec.location = sec.start := rfl
    have hsubaddr : Address.sub_addr sub sec.start = sub - sec.start := rfl
    have hb2 := overlay_lt (Slice.ofMem s.mem sec.start sec.size)
      (Address.sub_addr sub sec.start) blk (ofMem_lt s.mem hmem sec.start sec.size) hblk
    have hs1busy : (⟨eraseRange s.mem sec.start sec.stop, s.busy, s.erased ++ [n]⟩ :
        FlashState).busy = false := hbusy
    have hwb := write_bytes_ok
      ⟨eraseRange s.mem sec.start sec.stop, s.busy, s.erased ++ [n]⟩
      (overlay (Slice.ofMem s.mem sec.start sec.size) (Address.sub_addr sub sec.start) blk)
      sec sec.location hs1busy (by rw [hloc])
      (by rw [hloc, hovlen]; omega) (by rw [hloc, hovlen]; omega)
    have h4s : 4 * numWords sec.size = sec.size := by
      have : numWords sec.size = (sec.size + 3) / 4 := rfl
      rw [this]
      omega
    have hpw2 : ∀ x,
        programWords (overlay (Slice.ofMem s.mem sec.start sec.size)
            (Address.sub_addr sub sec.start) blk) sec.location 0
          (numWords (overlay (Slice.ofMem s.mem sec.start sec.size)
            (Address.sub_addr sub sec.start) blk).len)
          (eraseRange s.mem sec.start sec.stop) x =
        if sec.start ≤ x ∧ x < sec.start + sec.size then
          (overlay (Slice.ofMem s.mem sec.start sec.size)
            (Address.sub_addr sub sec.start) blk).getD (x - sec.start) 0
        else eraseRange s.mem sec.start sec.stop x := by
      intro x
      rw [programWords_get _ _ hb2]
      rw [hovlen, hloc]
      congr 1
      simp only [Nat.mul_zero, Nat.add_zero, Nat.zero_add, h4s]
    refine ⟨⟨programWords (overlay (Slice.ofMem s.mem sec.start sec.size) (Address.sub_addr sub sec.start) blk) sec.location 0 (numWords (overlay (Slice.ofMem s.mem sec.start sec.size) (Address.sub_addr sub sec.start) blk).len) (eraseRange s.mem sec.start sec.stop), s.busy, s.erased ++ [n]⟩,
      by rw [hred, if_neg hc, erase_sector_ok s sec n hn hbusy]; exact hwb,
      hbusy, ?_, ?_, ?_, fun htrue => absurd htrue hc, fun _ => ⟨by rw [hn]; rfl, ?_⟩⟩
    · intro a
      show programWords _ sec.location 0 _ (eraseRange s.mem sec.start sec.stop) a < 256
      rw [hpw2 a]
      split
      · exact slice_getD_lt _ hb2 _
      · unfold eraseRange
        split
        · omega
        · exact hmem a
    · intro a ha
      show programWords _ sec.location 0 _ (eraseRange s.mem sec.start sec.stop) a = s.mem a
      rw [hpw2 a, if_neg (by omega)]
      unfold eraseRange
      rw [if_neg (by omega)]
    · intro i hi
      show programWords _ sec.location 0 _ (eraseRange s.mem sec.start sec.stop) (sub + i) =
        blk.getD i 0
      rw [hpw2 (sub + i), if_pos (by omega)]
      rw [overlay_getD, hofLen, if_pos (by omega), hsubaddr,
        if_pos (by constructor <;> omega)]
      have hidx : sub + i - sec.start - (sub - sec.start) = i := by omega
      rw [hidx]
    · intro a ha1 ha2 ha3
      show programWords _ sec.location 0 _ (eraseRange s.mem sec.start sec.stop) a = s.mem a
      rw [hpw2 a, if_pos (by omega)]
      rw [overlay_getD, hofLen, if_pos (by omega), hsubaddr, if_neg (by omega)]
      show s.mem (sec.start + (a - sec.start)) = s.mem a
      congr 1
      omega

/-! ### Facts about the per-sector decomposition -/

theorem overlap_pieces_mem (bytes : List Nat) (addr : Nat) (blk : List Nat) (sec : Sector)
    (sub : Nat) (h : (blk, sec, sub) ∈ overlap_pieces bytes addr) :
    sec ∈ MEMORY_MAP.sectors ∧ sub = max addr sec.start ∧
    max addr sec.start < min (addr + bytes.length) sec.stop ∧
    blk = (bytes.drop (max addr sec.start - addr)).take
      (min (addr + bytes.length) sec.stop - max addr sec.start) := by
  unfold overlap_pieces at h
  rw [List.mem_filterMap] at h
  obtain ⟨sec', hmem, hf⟩ := h
  split at hf
  · next hcond =>
    injection hf with hf
    simp only [Prod.mk.injEq] at hf
    obtain ⟨h1, h2, h3⟩ := hf
    subst h2
    exact ⟨hmem, h3.symm, hcond, h1.symm⟩
  · exact absurd hf (by simp)

theorem overlap_pieces_of_sector (bytes : List Nat) (addr : Nat) (sec : Sector)
    (hmem : sec ∈ MEMORY_MAP.sectors)
    (hlt : max addr sec.start < min (addr + bytes.length) sec.stop) :
    ((bytes.drop (max addr sec.start - addr)).take
       (min (addr + bytes.length) sec.stop - max addr sec.start),
     sec, max addr sec.start) ∈ overlap_pieces bytes addr := by
  unfold overlap_pieces
  rw [List.mem_filterMap]
  exact ⟨sec, hmem, by rw [if_pos hlt]⟩

theorem drop_take_length (bytes : List Nat) (d t : Nat) (h : d + t ≤ bytes.length) :
    ((bytes.drop d).take t).length = t := by
  simp only [List.length_take, List.length_drop]
  omega

theorem drop_take_getD (bytes : List Nat) (d t i : Nat) (hi : i < t)
    (h : d + t ≤ bytes.length) : ((bytes.drop d).take t).getD i 0 = bytes.getD (d + i) 0 := by
  have hlen : ((bytes.drop d).take t).length = t := drop_take_length bytes d t h
  rw [List.getD_eq_getElem _ _ (by omega), List.getD_eq_getElem _ _ (by omega)]
  rw [List.getElem_take, List.getElem_drop]

/-- A map sector satisfying the simple overlap predicate of a monotonic range
belongs to its span. -/
theorem sector_in_span (a b : Nat) (hab : a ≤ b) (j : Nat)
    (hj : j < MEMORY_MAP.sectors.length)
    (hP : overlap_simple ⟨a, b⟩ (MEMORY_MAP.sectors.getD j default) = true) :
    MEMORY_MAP.sectors.getD j default ∈ Range.span ⟨a, b⟩ := by
  have hcong : ∀ s ∈ MEMORY_MAP.sectors, Range.overlaps ⟨a, b⟩ s = overlap_simple ⟨a, b⟩ s :=
    fun s hs => overlaps_eq_simple ⟨a, b⟩ s hab (map_sectors_nonempty s hs)
  have hff0 := find_first_idx_congr _ _ MEMORY_MAP.sectors hcong 0
  have hfl0 := find_last_idx_congr _ _ MEMORY_MAP.sectors hcong 0
  cases hff : find_first_idx (overlap_simple ⟨a, b⟩) 0 MEMORY_MAP.sectors with
  | none =>
    have hall := find_first_idx_none _ _ 0 hff
    rw [hall j hj] at hP
    exact Bool.noConfusion hP
  | some f =>
    obtain ⟨-, hflen, hpf, hfmin⟩ := find_first_idx_some _ _ 0 f hff
    simp only [Nat.sub_zero] at hflen hpf hfmin
    cases hfl : find_last_idx (overlap_simple ⟨a, b⟩) 0 MEMORY_MAP.sectors with
    | none =>
      have hall := find_last_idx_none _ _ 0 hfl
      rw [hall f hflen] at hpf
      exact Bool.noConfusion hpf
    | some last =>
      obtain ⟨-, hllen, hpl, hlmax⟩ := find_last_idx_some _ _ 0 last hfl
      simp only [Nat.sub_zero] at hllen hpl hlmax
      have hfle : f ≤ last := by
        by_contra hlt
        rw [hfmin last (by omega)] at hpl
        exact Bool.noConfusion hpl
      rw [span_reduce_some ⟨a, b⟩ f last (hff0.trans hff) (hfl0.trans hfl), if_pos hfle]
      have hjf : f ≤ j := by
        by_contra hc
        rw [hfmin j (by omega)] at hP
        exact Bool.noConfusion hP
      have hjl : j ≤ last := by
        by_contra hc
        rw [hlmax j (by omega) hj] at hP
        exact Bool.noConfusion hP
      apply List.mem_iff_getElem.mpr
      refine ⟨j - f, ?_, ?_⟩
      · simp only [List.length_take, List.length_drop]
        omega
      · rw [List.getElem_take, List.getElem_drop]
        rw [List.getD_eq_getElem _ _ hj]
        congr 1
        omega

/-- Under a passed validation check, every sector of the decomposition is
writable. -/
theorem piece_sector_writable (bytes : List Nat) (addr : Nat) (blk : List Nat) (sec : Sector)
    (sub : Nat) (hw : Range.is_writable ⟨addr, addr + bytes.length⟩ = true)
    (hp : (blk, sec, sub) ∈ overlap_pieces bytes addr) : sec.is_writable = true := by
  obtain ⟨hmem, hsub, hlt, hblk⟩ := overlap_pieces_mem bytes addr blk sec sub hp
  obtain ⟨j, hj, hgj⟩ := List.mem_iff_getElem.mp hmem
  have hP : overlap_simple ⟨addr, addr + bytes.length⟩ (MEMORY_MAP.sectors.getD j default)
      = true := by
    rw [List.getD_eq_getElem _ _ hj, hgj]
    simp only [overlap_simple, Bool.and_eq_true, decide_eq_true_eq]
    omega
  have hspanmem := sector_in_span addr (addr + bytes.length) (by omega) j hj hP
  rw [List.getD_eq_getElem _ _ hj, hgj] at hspanmem
  unfold Range.is_writable at hw
  exact List.all_eq_true.mp hw sec hspanmem

theorem pairwise_filterMap {α β : Type} (f : α → Option β) (R : α → α → Prop)
    (R2 : β → β → Prop) (hf : ∀ a b p q, f a = some p → f b = some q → R a b → R2 p q) :
    ∀ l : List α, List.Pairwise R l → List.Pairwise R2 (l.filterMap f) := by
  intro l
  induction l with
  | nil => intro _; simp
  | cons x xs ih =>
    intro hp
    rw [List.filterMap_cons]
    rcases hpc : f x with _ | p
    · exact ih (List.Pairwise.of_cons hp)
    · apply List.Pairwise.cons
      · intro q hq
        obtain ⟨b, hb, hfb⟩ := List.mem_filterMap.mp hq
        exact hf x b p q hpc hfb (List.rel_of_pairwise_cons hp hb)
      · exact ih (List.Pairwise.of_cons hp)

/-- The sectors of the decomposition pieces are, in order, disjoint whenever
writable. -/
theorem overlap_pieces_pairwise (bytes : List Nat) (addr : Nat) :
    List.Pairwise (fun p q : List Nat × Sector × Nat =>
      p.2.1.is_writable = true → q.2.1.is_writable = true → p.2.1.stop ≤ q.2.1.start)
      (overlap_pieces bytes addr) := by
  unfold overlap_pieces
  apply pairwise_filterMap _
    (fun s t : Sector => s.is_writable = true → t.is_writable = true → s.stop ≤ t.start)
  · intro a b p q hfa hfb hr
    have hpa : p.2.1 = a := by
      split at hfa
      · injection hfa with hfa
        rw [← hfa]
      · exact absurd hfa (by simp)
    have hqb : q.2.1 = b := by
      split at hfb
      · injection hfb with hfb
        rw [← hfb]
      · exact absurd hfb (by simp)
    rw [hpa, hqb]
    exact hr
  · exact map_writable_disjoint

/-! ### The whole per-sector loop -/

/-- Induction over the per-sector loop of `McuFlash::write`: with well-formed,
pairwise-disjoint pieces on writable sectors the loop succeeds, changes no byte
outside the pieces' sectors, programs each piece's bytes, appends to the ghost
erase-log exactly the erase-path pieces (judged against the entry memory), and
on the erase path preserves the sector's bytes outside the written region. -/
theorem write_loop_ok (ps : List (List Nat × Sector × Nat)) :
    ∀ s : FlashState, s.busy = false → (∀ a, s.mem a < 256) →
      (∀ p ∈ ps, p.2.1 ∈ MEMORY_MAP.sectors ∧ p.2.1.is_writable = true ∧
        p.2.1.start ≤ p.2.2 ∧ p.2.2 % 4 = 0 ∧ p.2.2 + p.1.length ≤ p.2.1.stop ∧
        (∀ x ∈ p.1, x < 256)) →
      List.Pairwise (fun p q => p.2.1.stop ≤ q.2.1.start ∨ q.2.1.stop ≤ p.2.1.start) ps →
      ∃ s', write_loop s ps = .ok s' ∧
        s'.busy = false ∧ (∀ a, s'.mem a < 256) ∧
        (∀ a, (∀ p ∈ ps, a < p.2.1.start ∨ p.2.1.stop ≤ a) → s'.mem a = s.mem a) ∧
        (∀ p ∈ ps, ∀ i, i < p.1.length → s'.mem (p.2.2 + i) = p.1.getD i 0) ∧
        s'.erased = s.erased ++ ps.flatMap (fun p =>
          if direct_path_cond s.mem p.1 p.2.1 p.2.2 then [] else [p.2.1.number.getD 0]) ∧
        (∀ p ∈ ps, direct_path_cond s.mem p.1 p.2.1 p.2.2 = false →
          ∀ a, p.2.1.start ≤ a → a < p.2.1.stop → a < p.2.2 ∨ p.2.2 + p.1.length ≤ a →
            s'.mem a = s.mem a) := by
  induction ps with
  | nil =>
    intro s hbusy hmem _ _
    exact ⟨s, rfl, hbusy, hmem, fun a _ => rfl, by simp, by simp, by simp⟩
  | cons p ps ih =>
    intro s hbusy hmem hwf hdisj
    obtain ⟨blk, sec, sub⟩ := p
    obtain ⟨hsecmem, hsecw, hlo, hsub4, hhi, hblk⟩ :=
      hwf (blk, sec, sub) (List.mem_cons_self _ _)
    dsimp only at hsecmem hsecw hlo hsub4 hhi hblk
    obtain ⟨hss, hs4, hz4, hzpos, hwrap⟩ := map_sector_facts sec hsecmem
    have hnum := map_writable_number sec hsecmem hsecw
    have hrw := map_writable_sector_range_writable sec hsecmem hsecw
    obtain ⟨s2, heq2, hbusy2, hmem2, hframe2, hval2, hdirect2, herase2⟩ :=
      write_piece_ok s blk sec sub hbusy hmem hblk hrw hnum hss hs4 hz4 hwrap hlo hsub4 hhi
    have hwf' : ∀ q ∈ ps, q.2.1 ∈ MEMORY_MAP.sectors ∧ q.2.1.is_writable = true ∧
        q.2.1.start ≤ q.2.2 ∧ q.2.2 % 4 = 0 ∧ q.2.2 + q.1.length ≤ q.2.1.stop ∧
        (∀ x ∈ q.1, x < 256) := fun q hq => hwf q (List.mem_cons_of_mem _ hq)
    have hdisj' := List.Pairwise.of_cons hdisj
    have hrel : ∀ q ∈ ps, sec.stop ≤ q.2.1.start ∨ q.2.1.stop ≤ sec.start :=
      fun q hq => List.rel_of_pairwise_cons hdisj hq
    have hagree : ∀ q ∈ ps, ∀ a, q.2.1.start ≤ a → a < q.2.1.stop → s2.mem a = s.mem a := by
      intro q hq a h1 h2
      rcases hrel q hq with h | h
      · exact hframe2 a (Or.inr (by omega))
      · exact hframe2 a (Or.inl (by omega))
    obtain ⟨s', heq', hbusy', hmem', hframe', hval', herased', heframe'⟩ :=
      ih s2 hbusy2 hmem2 hwf' hdisj'
    have hloopeq : write_loop s ((blk, sec, sub) :: ps) = .ok s' := by
      simp only [write_loop]
      rw [heq2]
      exact heq'
    have hcond' : ∀ q ∈ ps, direct_path_cond s2.mem q.1 q.2.1 q.2.2 =
        direct_path_cond s.mem q.1 q.2.1 q.2.2 := by
      intro q hq
      obtain ⟨hqmem, -, -, -, -, -⟩ := hwf' q hq
      obtain ⟨hqss, -, -, -, -⟩ := map_sector_facts q.2.1 hqmem
      exact direct_path_cond_congr s2.mem s.mem q.1 q.2.1 q.2.2
        (fun a h1 h2 => hagree q hq a h1 h2) hqss
    refine ⟨s', hloopeq, hbusy', hmem', ?_, ?_, ?_, ?_⟩
    · intro a ha
      rw [hframe' a (fun q hq => ha q (List.mem_cons_of_mem _ hq))]
      exact hframe2 a (ha (blk, sec, sub) (List.mem_cons_self _ _))
    · intro q hq i hi
      rcases List.mem_cons.mp hq with rfl | hq'
      · dsimp only at hi ⊢
        rw [hframe' (sub + i) ?_]
        · exact hval2 i hi
        · intro q' hq''
          rcases hrel q' hq'' with h | h
          · exact Or.inl (by omega)
          · exact Or.inr (by omega)
      · exact hval' q hq' i hi
    · have hfm : ps.flatMap (fun q =>
          if direct_path_cond s2.mem q.1 q.2.1 q.2.2 then [] else [q.2.1.number.getD 0]) =
          ps.flatMap (fun q =>
          if direct_path_cond s.mem q.1 q.2.1 q.2.2 then [] else [q.2.1.number.getD 0]) :=
        List.flatMap_congr (fun q hq => by simp only [hcond' q hq])
      rw [List.flatMap_cons, herased', hfm]
      by_cases hch : direct_path_cond s.mem blk sec sub = true
      · rw [hdirect2 hch, if_pos hch]
        simp
      · have hcf : direct_path_cond s.mem blk sec sub = false := by simpa using hch
        rw [(herase2 hcf).1, if_neg hch]
        simp
    · intro q hq hqcf a h1 h2 h3
      rcases List.mem_cons.mp hq with rfl | hq'
      · dsimp only at hqcf h1 h2 h3 ⊢
        have h' := herase2 hqcf
        rw [hframe' a ?_]
        · exact h'.2 a h1 h2 h3
        · intro q' hq''
          rcases hrel q' hq'' with h | h
          · exact Or.inl (by omega)
          · exact Or.inr (by omega)
      · have hqcf2 : direct_path_cond s2.mem q.1 q.2.1 q.2.2 = false := by
          rw [hcond' q hq']
          exact hqcf
        rw [heframe' q hq' hqcf2 a h1 h2 h3]
        exact hagree q hq' a h1 h2

/-! ### Top-level `McuFlash::write`: validation unfoldings -/

theorem nbresult_eq_ok {α : Type} (r : NbResult α) (d : α) (h : r.isOk = true) :
    r = .ok (r.getD d) := by
  cases r <;> simp [NbResult.isOk, NbResult.getD] at h ⊢

theorem write_misaligned (s : FlashState) (addr : Nat) (bytes : List Nat)
    (h : addr % 4 ≠ 0) : McuFlash.write s addr bytes = .err .MisalignedAccess := by
  simp only [McuFlash.write]
  rw [if_pos h]

theorem write_not_reachable (s : FlashState) (addr : Nat) (bytes : List Nat)
    (h1 : addr % 4 = 0)
    (h2 : Range.is_writable ⟨addr, wrap32 (addr + wrap32 bytes.length)⟩ = false) :
    McuFlash.write s addr bytes = .err .MemoryNotReachable := by
  simp only [McuFlash.write]
  rw [if_neg (by omega), if_pos (by simp [h2])]

theorem write_would_block (s : FlashState) (addr : Nat) (bytes : List Nat)
    (h1 : addr % 4 = 0)
    (h2 : Range.is_writable ⟨addr, wrap32 (addr + wrap32 bytes.length)⟩ = true)
    (h3 : s.busy = true) : McuFlash.write s addr bytes = .wouldBlock := by
  simp only [McuFlash.write, McuFlash.is_busy]
  rw [if_neg (by omega), if_neg (by simp [h2]), if_pos h3]

theorem write_unfold_ok (s : FlashState) (addr : Nat) (bytes : List Nat)
    (h1 : addr % 4 = 0)
    (h2 : Range.is_writable ⟨addr, wrap32 (addr + wrap32 bytes.length)⟩ = true)
    (h3 : s.busy = false) :
    McuFlash.write s addr bytes = write_loop s (overlap_pieces bytes addr) := by
  simp only [McuFlash.write, McuFlash.is_busy]
  rw [if_neg (by omega), if_neg (by simp [h2]), if_neg (by simp [h3])]

/-- For in-range requests the wrapped validation range is the plain one. -/
theorem wrap_range_eq (addr len : Nat) (h : addr + len < 4294967296) :
    wrap32 (addr + wrap32 len) = addr + len := by
  simp only [wrap32]
  omega

/-- Under a passed validation check, the decomposition pieces satisfy all the
well-formedness conditions of the loop lemma. -/
theorem pieces_wf (bytes : List Nat) (addr : Nat)
    (hal : addr % 4 = 0) (hb : ∀ x ∈ bytes, x < 256)
    (hw : Range.is_writable ⟨addr, addr + bytes.length⟩ = true) :
    ∀ p ∈ overlap_pieces bytes addr, p.2.1 ∈ MEMORY_MAP.sectors ∧
      p.2.1.is_writable = true ∧ p.2.1.start ≤ p.2.2 ∧ p.2.2 % 4 = 0 ∧
      p.2.2 + p.1.length ≤ p.2.1.stop ∧ (∀ x ∈ p.1, x < 256) := by
  intro p hp
  obtain ⟨blk, sec, sub⟩ := p
  obtain ⟨hmem, hsub, hlt, hblk⟩ := overlap_pieces_mem bytes addr blk sec sub hp
  obtain ⟨hss, hs4, hz4, -, -⟩ := map_sector_facts sec hmem
  have hwri := piece_sector_writable bytes addr blk sec sub hw hp
  have hlen : blk.length = min (addr + bytes.length) sec.stop - max addr sec.start := by
    rw [hblk]
    exact drop_take_length bytes _ _ (by omega)
  refine ⟨hmem, hwri, by dsimp only; omega, by dsimp only; omega, by dsimp only; omega, ?_⟩
  intro x hx
  dsimp only at hx
  rw [hblk] at hx
  exact hb x (List.mem_of_mem_drop (List.mem_of_mem_take hx))

theorem map_sectors_distinct :
    List.Pairwise (fun s t : Sector => s ≠ t) MEMORY_MAP.sectors := by
  decide

theorem map_writable_number_ne :
    ∀ s ∈ MEMORY_MAP.sectors, ∀ t ∈ MEMORY_MAP.sectors, s.is_writable = true →
      t.is_writable = true → s ≠ t → s.number ≠ t.number := by
  decide

/-- In order, the decomposition pieces have pairwise distinct sectors. -/
theorem overlap_pieces_sector_ne (bytes : List Nat) (addr : Nat) :
    List.Pairwise (fun p q : List Nat × Sector × Nat => p.2.1 ≠ q.2.1)
      (overlap_pieces bytes addr) := by
  unfold overlap_pieces
  apply pairwise_filterMap _ (fun s t : Sector => s ≠ t)
  · intro a b p q hfa hfb hr
    have hpa : p.2.1 = a := by
      split at hfa
      · injection hfa with hfa
        rw [← hfa]
      · exact absurd hfa (by simp)
    have hqb : q.2.1 = b := by
      split at hfb
      · injection hfb with hfb
        rw [← hfb]
      · exact absurd hfb (by simp)
    rw [hpa, hqb]
    exact hr
  · exact map_sectors_distinct

/-! ### Counting hardware erases in the ghost log -/

theorem count_log_zero (sec : Sector) (m : Mem) (hsec : sec ∈ MEMORY_MAP.sectors)
    (hsw : sec.is_writable = true) :
    ∀ ps : List (List Nat × Sector × Nat),
      (∀ q ∈ ps, q.2.1 ∈ MEMORY_MAP.sectors ∧ q.2.1.is_writable = true ∧ q.2.1 ≠ sec) →
      ((ps.flatMap (fun q => if direct_path_cond m q.1 q.2.1 q.2.2 then []
          else [q.2.1.number.getD 0])).filter
        (fun k => decide (sec.number = some k))).length = 0 := by
  intro ps
  induction ps with
  | nil => intro _; simp
  | cons q ps ih =>
    intro hps
    obtain ⟨hqmem, hqw, hqne⟩ := hps q (List.mem_cons_self _ _)
    rw [List.flatMap_cons, List.filter_append, List.length_append]
    rw [ih (fun r hr => hps r (List.mem_cons_of_mem _ hr))]
    obtain ⟨mq, hmq⟩ := Option.isSome_iff_exists.mp (map_writable_number q.2.1 hqmem hqw)
    have hnne := map_writable_number_ne q.2.1 hqmem sec hsec hqw hsw hqne
    by_cases hc : direct_path_cond m q.1 q.2.1 q.2.2
    · rw [if_pos hc]
      simp
    · rw [if_neg hc]
      have hpred : decide (sec.number = some (q.2.1.number.getD 0)) = false := by
        rw [hmq, Option.getD_some]
        apply decide_eq_false
        intro habs
        exact hnne (by rw [hmq, habs])
      simp [hpred]

theorem count_log_main (sec : Sector) (m : Mem) (blk : List Nat) (sub : Nat) :
    ∀ ps : List (List Nat × Sector × Nat),
      (∀ q ∈ ps, q.2.1 ∈ MEMORY_MAP.sectors ∧ q.2.1.is_writable = true) →
      List.Pairwise (fun p q => p.2.1 ≠ q.2.1) ps →
      (blk, sec, sub) ∈ ps →
      ((ps.flatMap (fun q => if direct_path_cond m q.1 q.2.1 q.2.2 then []
          else [q.2.1.number.getD 0])).filter
        (fun k => decide (sec.number = some k))).length =
        (if direct_path_cond m blk sec sub then 0 else 1) := by
  intro ps
  induction ps with
  | nil => intro _ _ h; simp at h
  | cons q ps ih =>
    intro hps hpw hmem
    have hsp := hps (blk, sec, sub) hmem
    dsimp only at hsp
    rw [List.flatMap_cons, List.filter_append, List.length_append]
    rcases List.mem_cons.mp hmem with heq | hmem'
    · subst heq
      have htail := count_log_zero sec m hsp.1 hsp.2 ps ?_
      · rw [htail]
        obtain ⟨n, hn⟩ := Option.isSome_iff_exists.mp (map_writable_number sec hsp.1 hsp.2)
        dsimp only
        by_cases hc : direct_path_cond m blk sec sub
        · rw [if_pos hc, if_pos hc]
          simp
        · rw [if_neg hc, if_neg hc]
          have hpred : decide (sec.number = some (sec.number.getD 0)) = true := by
            rw [hn, Option.getD_some]
            simp
          simp [hpred]
      · intro r hr
        obtain ⟨hrmem, hrw⟩ := hps r (List.mem_cons_of_mem _ hr)
        have hne := List.rel_of_pairwise_cons hpw hr
        dsimp only at hne
        exact ⟨hrmem, hrw, fun habs => hne habs.symm⟩
    · rw [ih (fun r hr => hps r (List.mem_cons_of_mem _ hr)) (List.Pairwise.of_cons hpw) hmem']
      obtain ⟨hqmem, hqw⟩ := hps q (List.mem_cons_self _ _)
      have hne : q.2.1 ≠ sec := by
        have h := List.rel_of_pairwise_cons hpw hmem'
        dsimp only at h
        exact h
      obtain ⟨mq, hmq⟩ := Option.isSome_iff_exists.mp (map_writable_number q.2.1 hqmem hqw)
      have hnne := map_writable_number_ne q.2.1 hqmem sec hsp.1 hqw hsp.2 hne
      by_cases hc : direct_path_cond m q.1 q.2.1 q.2.2
      · rw [if_pos hc]
        simp
      · rw [if_neg hc]
        have hpred : decide (sec.number = some (q.2.1.number.getD 0)) = false := by
          rw [hmq, Option.getD_some]
          apply decide_eq_false
          intro habs
          exact hnne (by rw [hmq, habs])
        simp [hpred]

/-! ### The whole-device erase loop -/

theorem erase_all_loop_ok (secs : List Sector) :
    ∀ s : FlashState, s.busy = false →
      (∀ sec ∈ secs, (sec.number).isSome = true) →
      ∃ s', erase_all_loop s secs = .ok s' ∧ s'.busy = false ∧
        s'.erased = s.erased ++ secs.map (fun sec => sec.number.getD 0) ∧
        (∀ a, s'.mem a =
          if secs.any (fun sec => decide (sec.start ≤ a) && decide (a < sec.stop)) then 255
          else s.mem a) := by
  induction secs with
  | nil =>
    intro s hbusy _
    exact ⟨s, rfl, hbusy, by simp, fun a => by simp⟩
  | cons sec rest ih =>
    intro s hbusy hnums
    obtain ⟨n, hn⟩ := Option.isSome_iff_exists.mp (hnums sec (List.mem_cons_self _ _))
    have h1 := erase_sector_ok s sec n hn hbusy
    obtain ⟨s', heq, hbusy', herased, hmem'⟩ :=
      ih ⟨eraseRange s.mem sec.start sec.stop, s.busy, s.erased ++ [n]⟩ hbusy
        (fun t ht => hnums t (List.mem_cons_of_mem _ ht))
    dsimp only at herased hmem'
    refine ⟨s', ?_, hbusy', ?_, ?_⟩
    · simp only [erase_all_loop]
      rw [h1]
      exact heq
    · rw [herased, List.map_cons, hn, Option.getD_some, List.append_assoc]
      rfl
    · intro a
      rw [hmem' a]
      by_cases h2 : rest.any (fun t => decide (t.start ≤ a) && decide (a < t.stop)) = true
      · rw [if_pos h2, if_pos (by
          simp only [List.any_cons, Bool.or_eq_true]
          exact Or.inr h2)]
      · rw [if_neg h2]
        simp only [eraseRange]
        by_cases hin : sec.start ≤ a ∧ a < sec.stop
        · rw [if_pos hin, if_pos (by
            simp only [List.any_cons, Bool.or_eq_true, Bool.and_eq_true, decide_eq_true_eq]
            exact Or.inl hin)]
        · rw [if_neg hin, if_neg (by
            simp only [List.any_cons, Bool.or_eq_true, Bool.and_eq_true, decide_eq_true_eq]
            rintro (h | h)
            · exact hin h
            · exact h2 h)]

/-! ### Putting `McuFlash::write` together -/

/-- A successful write implies all three validation checks passed. -/
theorem write_ok_inv (s : FlashState) (addr : Nat) (bytes : List Nat) (s' : FlashState)
    (hok : McuFlash.write s addr bytes = .ok s') :
    addr % 4 = 0 ∧
    Range.is_writable ⟨addr, wrap32 (addr + wrap32 bytes.length)⟩ = true ∧
    s.busy = false := by
  by_cases h1 : addr % 4 = 0
  · by_cases h2 : Range.is_writable ⟨addr, wrap32 (addr + wrap32 bytes.length)⟩ = true
    · by_cases h3 : s.busy = false
      · exact ⟨h1, h2, h3⟩
      · rw [write_would_block s addr bytes h1 h2 (by simpa using h3)] at hok
        exact NbResult.noConfusion hok
    · rw [write_not_reachable s addr bytes h1 (by simpa using h2)] at hok
      exact NbResult.noConfusion hok
  · rw [write_misaligned s addr bytes h1] at hok
    exact NbResult.noConfusion hok

theorem pieces_disjoint (bytes : List Nat) (addr : Nat)
    (hal : addr % 4 = 0) (hb : ∀ x ∈ bytes, x < 256)
    (hw : Range.is_writable ⟨addr, addr + bytes.length⟩ = true) :
    List.Pairwise (fun p q : List Nat × Sector × Nat =>
      p.2.1.stop ≤ q.2.1.start ∨ q.2.1.stop ≤ p.2.1.start) (overlap_pieces bytes addr) :=
  (overlap_pieces_pairwise bytes addr).imp_of_mem (fun {p q} hp hq hr =>
    Or.inl (hr (pieces_wf bytes addr hal hb hw p hp).2.1
      (pieces_wf bytes addr hal hb hw q hq).2.1))

/-- Full characterisation of a successful `McuFlash::write` in terms of the
decomposition pieces. -/
theorem write_ok_spec (s : FlashState) (addr : Nat) (bytes : List Nat) (s' : FlashState)
    (hmem : ∀ a, s.mem a < 256) (hb : ∀ x ∈ bytes, x < 256)
    (hwrap : addr + bytes.length < 4294967296)
    (hok : McuFlash.write s addr bytes = .ok s') :
    (∀ a, (∀ p ∈ overlap_pieces bytes addr, a < p.2.1.start ∨ p.2.1.stop ≤ a) →
       s'.mem a = s.mem a) ∧
    (∀ p ∈ overlap_pieces bytes addr, ∀ i, i < p.1.length →
       s'.mem (p.2.2 + i) = p.1.getD i 0) ∧
    s'.erased = s.erased ++ (overlap_pieces bytes addr).flatMap (fun p =>
       if direct_path_cond s.mem p.1 p.2.1 p.2.2 then [] else [p.2.1.number.getD 0]) ∧
    (∀ p ∈ overlap_pieces bytes addr, direct_path_cond s.mem p.1 p.2.1 p.2.2 = false →
       ∀ a, p.2.1.start ≤ a → a < p.2.1.stop → a < p.2.2 ∨ p.2.2 + p.1.length ≤ a →
         s'.mem a = s.mem a) := by
  obtain ⟨hal, hwr, hbusy⟩ := write_ok_inv s addr bytes s' hok
  have hwr' : Range.is_writable ⟨addr, addr + bytes.length⟩ = true := by
    rw [wrap_range_eq addr bytes.length hwrap] at hwr
    exact hwr
  obtain ⟨s'', heq, -, -, hframe, hvals, herased, heframe⟩ :=
    write_loop_ok (overlap_pieces bytes addr) s hbusy hmem
      (pieces_wf bytes addr hal hb hwr') (pieces_disjoint bytes addr hal hb hwr')
  rw [write_unfold_ok s addr bytes hal hwr hbusy, heq] at hok
  injection hok with hok
  subst hok
  exact ⟨hframe, hvals, herased, heframe⟩

/-! ### C1: the per-sector erase decision -/

/-- C1: for every accepted `write(address, bytes)` and every piece
`(blk, sec, sub)` of its per-sector decomposition: if `blk` is a bitwise subset
of the sector's current content at the target offset, the engine programs the
block directly and does not issue a sector erase; otherwise it erases that
sector exactly once (ghost-log count increases by exactly one), overlays the
block onto the previously read sector content and reprograms the whole sector,
leaving every byte of the sector outside the written region unchanged. -/
theorem c1_write_erase_decision (s : FlashState) (addr : Nat) (bytes : List Nat)
    (s' : FlashState) (blk : List Nat) (sec : Sector) (sub : Nat)
    (hmem : ∀ a, s.mem a < 256) (hb : ∀ x ∈ bytes, x < 256)
    (hwrap : addr + bytes.length < 4294967296)
    (hok : McuFlash.write s addr bytes = .ok s')
    (hp : (blk, sec, sub) ∈ overlap_pieces bytes addr) :
    (direct_path_cond s.mem blk sec sub = true →
       erase_count s' sec = erase_count s sec ∧
       ∀ i, i < blk.length → s'.mem (sub + i) = blk.getD i 0) ∧
    (direct_path_cond s.mem blk sec sub = false →
       erase_count s' sec = erase_count s sec + 1 ∧
       (∀ i, i < blk.length → s'.mem (sub + i) = blk.getD i 0) ∧
       (∀ a, sec.start ≤ a → a < sec.stop → a < sub ∨ sub + blk.length ≤ a →
          s'.mem a = s.mem a)) := by
  obtain ⟨hal, hwr, hbusy⟩ := write_ok_inv s addr bytes s' hok
  have hwr' : Range.is_writable ⟨addr, addr + bytes.length⟩ = true := by
    rw [wrap_range_eq addr bytes.length hwrap] at hwr
    exact hwr
  have hwf := pieces_wf bytes addr hal hb hwr'
  obtain ⟨hframe, hvals, herased, heframe⟩ := write_ok_spec s addr bytes s' hmem hb hwrap hok
  have hcount : erase_count s' sec =
      erase_count s sec + (if direct_path_cond s.mem blk sec sub then 0 else 1) := by
    unfold erase_count
    rw [herased, List.filter_append, List.length_append]
    congr 1
    exact count_log_main sec s.mem blk sub (overlap_pieces bytes addr)
      (fun q hq => ⟨(hwf q hq).1, (hwf q hq).2.1⟩) (overlap_pieces_sector_ne bytes addr) hp
  constructor
  · intro hc
    refine ⟨by rw [hcount, if_pos hc]; omega, fun i hi => hvals (blk, sec, sub) hp i hi⟩
  · intro hc
    refine ⟨by rw [hcount, if_neg (by simp [hc])],
      fun i hi => hvals (blk, sec, sub) hp i hi,
      fun a h1 h2 h3 => heframe (blk, sec, sub) hp hc a h1 h2 h3⟩

/-- Witness for `c1_write_erase_decision`: a 4-byte write into all-erased
memory takes the direct path and logs no erase. -/
theorem c1_write_erase_decision_witness :
    direct_path_cond ffState.mem [1, 2, 3, 4] ⟨Block.Main, 0x08010000, 65536⟩ 0x08010000
      = true ∧
    erase_count ((McuFlash.write ffState 0x08010000 [1, 2, 3, 4]).getD ffState)
        ⟨Block.Main, 0x08010000, 65536⟩ =
      erase_count ffState ⟨Block.Main, 0x08010000, 65536⟩ := by
  have hok := nbresult_eq_ok (McuFlash.write ffState 0x08010000 [1, 2, 3, 4]) ffState
    (by decide)
  have h := c1_write_erase_decision ffState 0x08010000 [1, 2, 3, 4] _
    [1, 2, 3, 4] ⟨Block.Main, 0x08010000, 65536⟩ 0x08010000
    (fun _ => by norm_num [ffState, ffMem]) (by decide) (by decide) hok (by decide)
  exact ⟨by decide, (h.1 (by decide)).1⟩

/-! ### C2: round-trip -/

/-- C2 (amended): if the whole range `[address, address + len)` lies inside the
writable area, a successful `write(address, X)` followed by
`read(address, len(X))` returns exactly `X`, regardless of the path each sector
took.  (The original, unrestricted claim is refuted by `c2_cex`: validation
accepts ranges that overhang the end of the last writable sector into unmapped
address space and silently truncates the write.) -/
theorem c2_round_trip (s : FlashState) (addr : Nat) (bytes : List Nat) (s' : FlashState)
    (hmem : ∀ a, s.mem a < 256) (hb : ∀ x ∈ bytes, x < 256)
    (hlo : MemoryMap.writable_start ≤ addr)
    (hhi : addr + bytes.length ≤ MemoryMap.writable_end)
    (hok : McuFlash.write s addr bytes = .ok s') :
    read_list s' addr bytes.length = some bytes := by
  have hwe : MemoryMap.writable_end = 0x08100000 := by decide
  have hwrap : addr + bytes.length < 4294967296 := by omega
  obtain ⟨hal, hwr, hbusy⟩ := write_ok_inv s addr bytes s' hok
  obtain ⟨hframe, hvals, herased, heframe⟩ := write_ok_spec s addr bytes s' hmem hb hwrap hok
  unfold read_list
  rw [read_ok s' addr bytes.length hwr]
  show some (Slice.ofMem s'.mem addr bytes.length).toList = some bytes
  have hlist : (Slice.ofMem s'.mem addr bytes.length).toList = bytes := by
    apply List.ext_getElem
    · simp [Slice.toList, Slice.ofMem]
    · intro i h1 h2
      simp only [Slice.toList, Slice.ofMem, List.getElem_map, List.getElem_range]
      obtain ⟨sec, hsecmem, hsecw, hxlo, hxhi⟩ :=
        writable_coverage (addr + i) (by omega) (by omega)
      have hlt : max addr sec.start < min (addr + bytes.length) sec.stop := by
        simp at h2
        omega
      have hpiece := overlap_pieces_of_sector bytes addr sec hsecmem hlt
      have hplen : ((bytes.drop (max addr sec.start - addr)).take
          (min (addr + bytes.length) sec.stop - max addr sec.start)).length =
          min (addr + bytes.length) sec.stop - max addr sec.start :=
        drop_take_length bytes _ _ (by omega)
      have hib : addr + i - max addr sec.start <
          ((bytes.drop (max addr sec.start - addr)).take
            (min (addr + bytes.length) sec.stop - max addr sec.start)).length := by
        rw [hplen]
        simp at h2
        omega
      have hval := hvals _ hpiece (addr + i - max addr sec.start) hib
      dsimp only at hval
      have hidx : max addr sec.start + (addr + i - max addr sec.start) = addr + i := by
        omega
      rw [hidx] at hval
      rw [hval]
      rw [drop_take_getD bytes _ _ _ (by rw [← hplen]; exact hib) (by omega)]
      have hidx2 : max addr sec.start - addr + (addr + i - max addr sec.start) = i := by
        omega
      rw [hidx2]
      exact List.getD_eq_getElem bytes 0 h2
  rw [hlist]

/-- C2 counterexample: `0x080FFFFC` is word-aligned and inside the writable
area, the 8-byte write is accepted, yet reading the same range back does not
return the written bytes: the last 4 bytes overhang past `writable_end` into
unmapped address space, pass the span-based validation, and are silently
dropped by the decomposition. -/
theorem c2_cex :
    MemoryMap.writable_start ≤ 0x080FFFFC ∧
    (0x080FFFFC : Nat) < MemoryMap.writable_end ∧
    (McuFlash.write ffState 0x080FFFFC [0, 0, 0, 0, 0, 0, 0, 0]).isOk = true ∧
    read_list ((McuFlash.write ffState 0x080FFFFC [0, 0, 0, 0, 0, 0, 0, 0]).getD ffState)
        0x080FFFFC 8 ≠ some [0, 0, 0, 0, 0, 0, 0, 0] := by
  refine ⟨by decide, by decide, by decide, by decide⟩

/-- Witness for `c2_round_trip`: a one-byte write into all-erased memory reads
back unchanged. -/
theorem c2_round_trip_witness :
    read_list ((McuFlash.write ffState 0x08010000 [7]).getD ffState) 0x08010000 1 =
      some [7] := by
  have hok := nbresult_eq_ok (McuFlash.write ffState 0x08010000 [7]) ffState (by decide)
  exact c2_round_trip ffState 0x08010000 [7] _ (fun _ => by norm_num [ffState, ffMem])
    (by decide) (by decide) (by decide) hok

/-! ### C4: validation of `write` -/

/-- C4 (amended): `write` fails `MisalignedAccess` exactly on unaligned
addresses; it fails `MemoryNotReachable` exactly when the span-based
writability check fails (which is weaker than "fully contained in writable
sectors": see `c4_cex`); it returns `WouldBlock` exactly when validation passes
but the peripheral is busy; and it succeeds otherwise.  Errors are returned
before any state change: in this model an error result carries no new state. -/
theorem c4_validation (s : FlashState) (addr : Nat) (bytes : List Nat)
    (hmem : ∀ a, s.mem a < 256) (hb : ∀ x ∈ bytes, x < 256)
    (hwrap : addr + bytes.length < 4294967296) :
    (McuFlash.write s addr bytes = .err .MisalignedAccess ↔ addr % 4 ≠ 0) ∧
    (McuFlash.write s addr bytes = .err .MemoryNotReachable ↔
      (addr % 4 = 0 ∧ Range.is_writable ⟨addr, addr + bytes.length⟩ = false)) ∧
    (McuFlash.write s addr bytes = .wouldBlock ↔
      (addr % 4 = 0 ∧ Range.is_writable ⟨addr, addr + bytes.length⟩ = true ∧
        s.busy = true)) ∧
    ((McuFlash.write s addr bytes).isOk = true ↔
      (addr % 4 = 0 ∧ Range.is_writable ⟨addr, addr + bytes.length⟩ = true ∧
        s.busy = false)) := by
  have hwweq : wrap32 (addr + wrap32 bytes.length) = addr + bytes.length :=
    wrap_range_eq addr bytes.length hwrap
  by_cases h1 : addr % 4 = 0
  · by_cases h2 : Range.is_writable ⟨addr, addr + bytes.length⟩ = true
    · by_cases h3 : s.busy = true
      · rw [write_would_block s addr bytes h1 (by rw [hwweq]; exact h2) h3]
        refine ⟨?_, ?_, ?_, ?_⟩ <;> simp [NbResult.isOk, h1, h2, h3]
      · have h3' : s.busy = false := by simpa using h3
        obtain ⟨s'', heq, -⟩ :=
          write_loop_ok (overlap_pieces bytes addr) s h3' hmem
            (pieces_wf bytes addr h1 hb h2) (pieces_disjoint bytes addr h1 hb h2)
        rw [write_unfold_ok s addr bytes h1 (by rw [hwweq]; exact h2) h3', heq]
        refine ⟨?_, ?_, ?_, ?_⟩ <;> simp [NbResult.isOk, h1, h2, h3']
    · have h2' : Range.is_writable ⟨addr, addr + bytes.length⟩ = false := by simpa using h2
      rw [write_not_reachable s addr bytes h1 (by rw [hwweq]; exact h2')]
      refine ⟨?_, ?_, ?_, ?_⟩ <;> simp [NbResult.isOk, h1, h2']
  · rw [write_misaligned s addr bytes h1]
    refine ⟨?_, ?_, ?_, ?_⟩ <;> simp [NbResult.isOk, h1]

/-- C4 counterexample: the aligned 8-byte write at `0x080FFFFC` has its last
four bytes outside every sector of the map (addresses from `0x08100000` on),
so its range is not fully contained in writable sectors; yet the write does
not fail `MemoryNotReachable` — it succeeds. -/
theorem c4_cex :
    (0x080FFFFC : Nat) % 4 = 0 ∧
    (0x080FFFFC : Nat) + 8 > MemoryMap.writable_end ∧
    MEMORY_MAP.sectors.all (fun s => !(s.contains 0x08100000)) = true ∧
    (McuFlash.write ffState 0x080FFFFC (List.replicate 8 0)).isOk = true := by
  refine ⟨by decide, by decide, by decide, by decide⟩

/-- Witness for `c4_validation` at concrete inputs: an unaligned write fails
`MisalignedAccess` and an out-of-map write fails `MemoryNotReachable`. -/
theorem c4_validation_witness :
    McuFlash.write ffState 0x08010001 [1] = .err .MisalignedAccess ∧
    McuFlash.write ffState 0x00000000 [1] = .err .MemoryNotReachable ∧
    McuFlash.write ⟨ffMem, true, []⟩ 0x08010000 [1] = .wouldBlock := by
  refine ⟨?_, ?_, ?_⟩
  · exact (c4_validation ffState 0x08010001 [1] (fun _ => by norm_num [ffState, ffMem])
      (by decide) (by decide)).1.mpr (by decide)
  · exact (c4_validation ffState 0x00000000 [1] (fun _ => by norm_num [ffState, ffMem])
      (by decide) (by decide)).2.1.mpr (by decide)
  · exact (c4_validation ⟨ffMem, true, []⟩ 0x08010000 [1] (fun _ => by norm_num [ffMem])
      (by decide) (by decide)).2.2.1.mpr (by decide)

/-! ### C8: whole-device erase -/

/-- C8: the whole-device `erase()` issues a hardware sector erase for every
`Main` sector of the map (ghost log grows by exactly the erase indices 4..11,
in address order) and for no other sector; it sets every byte of the writable
area to `0xFF` and leaves every byte outside the writable area untouched. -/
theorem c8_erase_all (s s' : FlashState) (hbusy : s.busy = false)
    (hok : McuFlash.erase s = .ok s') :
    s'.erased = s.erased ++ [4, 5, 6, 7, 8, 9, 10, 11] ∧
    (∀ a, MemoryMap.writable_start ≤ a → a < MemoryMap.writable_end → s'.mem a = 255) ∧
    (∀ a, a < MemoryMap.writable_start ∨ MemoryMap.writable_end ≤ a →
      s'.mem a = s.mem a) := by
  obtain ⟨s'', heq, -, herased, hmem⟩ :=
    erase_all_loop_ok (MEMORY_MAP.sectors.filter Sector.is_writable) s hbusy (by decide)
  unfold McuFlash.erase at hok
  rw [heq] at hok
  injection hok with hok
  subst hok
  have hfl : MEMORY_MAP.sectors.filter Sector.is_writable =
      [⟨Block.Main, 0x08010000, 65536⟩, ⟨Block.Main, 0x08020000, 131072⟩,
       ⟨Block.Main, 0x08040000, 131072⟩, ⟨Block.Main, 0x08060000, 131072⟩,
       ⟨Block.Main, 0x08080000, 131072⟩, ⟨Block.Main, 0x080A0000, 131072⟩,
       ⟨Block.Main, 0x080C0000, 131072⟩, ⟨Block.Main, 0x080E0000, 131072⟩] := by
    decide
  have hws : MemoryMap.writable_start = 0x08010000 := by decide
  have hwe : MemoryMap.writable_end = 0x08100000 := by decide
  refine ⟨?_, ?_, ?_⟩
  · rw [herased]
    congr 1
  · intro a h1 h2
    rw [hws] at h1
    rw [hwe] at h2
    rw [hmem a, if_pos ?_]
    rw [hfl]
    simp only [List.any_cons, List.any_nil, Bool.or_eq_true, Bool.and_eq_true,
      decide_eq_true_eq, Sector.start, Sector.stop, wrap32, Sector.location]
    norm_num
    omega
  · intro a h
    rw [hws, hwe] at h
    rw [hmem a, if_neg ?_]
    rw [hfl]
    simp only [List.any_cons, List.any_nil, Bool.or_eq_true, Bool.and_eq_true,
      decide_eq_true_eq, Sector.start, Sector.stop, wrap32, Sector.location]
    norm_num
    omega

/-- Witness for `c8_erase_all`: erasing the whole device from an idle state
logs exactly the writable sector indices. -/
theorem c8_erase_all_witness :
    (McuFlash.erase ffState).isOk = true ∧
    ((McuFlash.erase ffState).getD ffState).erased = [4, 5, 6, 7, 8, 9, 10, 11] := by
  have hok := nbresult_eq_ok (McuFlash.erase ffState) ffState (by decide)
  have h := c8_erase_all ffState _ (by decide) hok
  refine ⟨by decide, ?_⟩
  rw [h.1]
  rfl

/-! ### C9: the word-padding defect of `write_bytes` -/

/-- C9: the claim is right and the code is wrong.  A direct-path write whose
length is not a multiple of 4 zero-pads the final word
(`bytes.get(i).cloned().unwrap_or(0)`) and programs all four bytes of it, so
the up-to-three bytes after the block's end inside the same word are cleared
to `0x00` instead of being left untouched.  Failing input: all-erased memory,
`write(0x08010000, [0xAA])` — a bitwise-subset write that takes the direct
path (no erase is logged), yet bytes `0x08010001..0x08010003` change from
`0xFF` to `0x00`. -/
theorem c9_pad_zeroing :
    (match McuFlash.write ffState 0x08010000 [0xAA] with
      | .ok s' => (s'.erased, s'.mem 0x08010000, s'.mem 0x08010001,
                   s'.mem 0x08010002, s'.mem 0x08010003)
      | _ => ([99], 0, 0, 0, 0)) = ([], 0xAA, 0, 0, 0) ∧
    ffState.mem 0x08010001 = 255 := by
  constructor
  · decide
  · decide

end BlueHal


